import Mathlib

/-!
Verification model of the langgraph-demo agent core: the SSE frame decoder,
the Anthropic stream delta accumulator and message assembler, the human-in-the-loop
(HITL) approval gate in the `tools` node, the rejection short-circuit in the `chat`
node, and the MCP tool name routing.  Text is modelled as `List Char` so that all
definitions are structurally recursive and kernel-evaluable.
-/

namespace LG

/-- Text is modelled as a list of characters (JS strings). -/
abbrev Str := List Char

/-- Coerce a Lean string literal to the `Str` model. -/
def txt (s : String) : Str := s.data

/-- JS `String.prototype.toLowerCase`, restricted to the ASCII range used by tool names. -/
def lower (s : Str) : Str := s.map Char.toLower

/-- JS `String.prototype.startsWith`: `strHasPre p s` is true when `p` is an initial
segment of `s`. -/
def strHasPre : Str → Str → Bool
  | [], _ => true
  | _ :: _, [] => false
  | a :: p, b :: s => if a = b then strHasPre p s else false

/-- JS `String.prototype.includes`: `hasSub p s` is true when `p` occurs contiguously in `s`. -/
def hasSub (p : Str) : Str → Bool
  | [] => strHasPre p []
  | a :: t => strHasPre p (a :: t) || hasSub p t

/-- `subInfix2 c1 c2 s` holds when the two-character sequence `c1 c2` occurs in `s`.
This is the propositional form of "the separator occurs", used for the decoder claims. -/
def subInfix2 (c1 c2 : Char) (s : Str) : Prop := ∃ u v, s = u ++ c1 :: c2 :: v

/-- Split a string on every occurrence of a single character `c`
(JS `raw.split("\n")` in `parseEventPayload`). -/
def splitChar (c : Char) : Str → List Str
  | [] => [[]]
  | a :: t =>
    match splitChar c t with
    | [] => [[]]
    | h :: r => if a = c then [] :: h :: r else (a :: h) :: r

/-- JS `Array.prototype.join(sep)` for a one-character separator over a list of strings. -/
def joinWithChar (c : Char) : List Str → Str
  | [] => []
  | [x] => x
  | x :: y :: r => x ++ c :: joinWithChar c (y :: r)

/-- JS `String.prototype.split` on a two-character separator (leftmost, non-overlapping),
modelling `toolName.split("__")`. -/
def splitS2 (c1 c2 : Char) : Str → List Str
  | [] => [[]]
  | [a] => [[a]]
  | a :: b :: t =>
    if a = c1 ∧ b = c2 then [] :: splitS2 c1 c2 t
    else
      match splitS2 c1 c2 (b :: t) with
      | [] => [[a]]
      | h :: r => (a :: h) :: r

/-- One pass of the streaming frame extraction loop: repeatedly cut the buffer at the
leftmost occurrence of the two-character terminator (`"\n\n"` in the source), returning
the complete frames in order and the unterminated remainder.  Models the inner
`while (true) { boundaryIndex = buffer.indexOf("\n\n"); ... }` loop of
`generateWithAnthropic` applied to a whole buffer. -/
def extractA (c1 c2 : Char) : Str → List Str × Str
  | [] => ([], [])
  | [a] => ([], [a])
  | a :: b :: t =>
    if a = c1 ∧ b = c2 then
      let e := extractA c1 c2 t
      ([] :: e.1, e.2)
    else
      match extractA c1 c2 (b :: t) with
      | ([], r) => ([], a :: r)
      | (h :: fs, r) => ((a :: h) :: fs, r)

/-- Reassemble frames with their terminators (each extracted frame was followed by the
two-character terminator in the original buffer). -/
def joinFrames (c1 c2 : Char) (fs : List Str) : Str :=
  fs.foldr (fun f acc => f ++ c1 :: c2 :: acc) []

/-- One chunk arriving from the reader: append to the buffer, then extract all complete
frames (the body of the outer `while` loop over `reader.read()`). -/
def feedStep (st : List Str × Str) (c : Str) : List Str × Str :=
  let e := extractA '\n' '\n' (st.2 ++ c)
  (st.1 ++ e.1, e.2)

/-- Feed a sequence of raw text fragments through the streaming decoder, collecting the
raw frames emitted and the final unterminated remainder (which the source discards). -/
def feedChunks (chunks : List Str) : List Str × Str :=
  chunks.foldl feedStep ([], [])

/-- A decoded SSE frame: event name and data payload. -/
structure Frame where
  event : Str
  data : Str
deriving DecidableEq

/-- JS-style whitespace trim for the `event:`/`data:` line payloads (`line.trim()`). -/
def isWsChar (c : Char) : Bool :=
  c = ' ' || c = '\t' || c = '\n' || c = '\r' || c = '\x0b' || c = '\x0c'

/-- JS `String.prototype.trim`. -/
def jsTrim (s : Str) : Str :=
  ((s.dropWhile isWsChar).reverse.dropWhile isWsChar).reverse

/-- Model of `parseEventPayload`: split the raw frame into lines, take the last
`event:` line as the event name (default `"message"`), concatenate the `data:`
lines with newlines, and drop the frame when the data is empty. -/
def parseEventPayload (raw : Str) : Option Frame :=
  let lines := splitChar '\n' raw
  let event := (lines.foldl
    (fun ev line => if strHasPre (txt "event:") line then jsTrim (line.drop 6) else ev)
    (txt "message"))
  let dataLines := (lines.filterMap
    (fun line => if strHasPre (txt "data:") line then some (jsTrim (line.drop 5)) else none))
  let data := joinWithChar '\n' dataLines
  if data = [] then none else some ⟨event, data⟩

/-- The decoded frame sequence produced for a fragmented input stream. -/
def decodeFrames (chunks : List Str) : List Frame :=
  (feedChunks chunks).1.filterMap parseEventPayload

/-! ### JSON values

JSON values as produced by `JSON.parse` and consumed by `JSON.stringify`.  Arrays and
objects carry their own spine types so that all recursion over values is structural
(hence kernel-evaluable).  Numbers are exact `mantissa × 10^exponent` pairs; the
payloads relevant here only ever carry small integers. -/

mutual
inductive Json where
  | null
  | bool (b : Bool)
  | num (m : Int) (e : Int)
  | str (s : Str)
  | arr (elems : JsonList)
  | obj (fields : JsonObj)
deriving DecidableEq
inductive JsonList where
  | nil
  | cons (hd : Json) (tl : JsonList)
deriving DecidableEq
inductive JsonObj where
  | nil
  | cons (key : Str) (val : Json) (tl : JsonObj)
deriving DecidableEq
end

/-- Field lookup in an object spine (first occurrence). -/
def findField : JsonObj → Str → Option Json
  | .nil, _ => none
  | .cons k v t, key => if k = key then some v else findField t key

/-- JS property access `j.key` for the payload shapes used by the stream handlers:
defined on objects, `undefined` (`none`) on every other value. -/
def getField : Json → Str → Option Json
  | .obj f, key => findField f key
  | _, _ => none

/-- JS truthiness of a JSON value (`null`, `false`, `0` and `""` are falsy). -/
def jsTruthy : Json → Bool
  | .null => false
  | .bool b => b
  | .num m _ => if m = 0 then false else true
  | .str s => if s = [] then false else true
  | .arr _ => true
  | .obj _ => true

/-- JS `j.key` followed by a truthiness test: the value when present and truthy. -/
def getTruthy (j : Json) (key : Str) : Option Json :=
  match getField j key with
  | some v => if jsTruthy v then some v else none
  | none => none

/-- Whether `j.key` is truthy. -/
def truthyField (j : Json) (key : Str) : Bool :=
  (getTruthy j key).isSome

/-- JS `j.type === t` for a string literal `t`. -/
def typeIs (j : Json) (t : Str) : Bool :=
  match getField j (txt "type") with
  | some (.str s) => if s = t then true else false
  | _ => false

/-- Decimal digit character. -/
def digitChar (n : Nat) : Char := Char.ofNat (48 + n)

/-- Lowercase hexadecimal digit character. -/
def hexDig (n : Nat) : Char :=
  if n < 10 then Char.ofNat (48 + n) else Char.ofNat (87 + n)

/-- Decimal rendering of a natural number (fuel-structural so it kernel-reduces). -/
def natRenderAux : Nat → Nat → Str
  | 0, _ => []
  | fuel + 1, n => if n < 10 then [digitChar n] else natRenderAux fuel (n / 10) ++ [digitChar (n % 10)]

/-- Decimal rendering of a natural number. -/
def natRender (n : Nat) : Str := natRenderAux (n + 1) n

/-- Decimal rendering of an integer. -/
def intRender (m : Int) : Str :=
  if m < 0 then '-' :: natRender m.natAbs else natRender m.natAbs

/-- Rendering of `mantissa × 10^exponent`.  The stream payloads only ever print
integers (`exponent = 0`); the other cases are rendered as plain positional decimals. -/
def numRender (m e : Int) : Str :=
  if e = 0 then intRender m
  else if 0 < e then intRender m ++ List.replicate e.toNat '0'
  else
    let ds := natRender m.natAbs
    let k := e.natAbs
    let body :=
      if k < ds.length then ds.take (ds.length - k) ++ '.' :: ds.drop (ds.length - k)
      else '0' :: '.' :: List.replicate (k - ds.length) '0' ++ ds
    if m < 0 then '-' :: body else body

/-- `JSON.stringify` escaping of one character inside a string literal. -/
def escChar (c : Char) : Str :=
  if c = '"' then ['\\', '"']
  else if c = '\\' then ['\\', '\\']
  else if c = '\n' then ['\\', 'n']
  else if c = '\r' then ['\\', 'r']
  else if c = '\t' then ['\\', 't']
  else if c = '\x08' then ['\\', 'b']
  else if c = '\x0c' then ['\\', 'f']
  else if c.toNat < 32 then ['\\', 'u', '0', '0', hexDig (c.toNat / 16), hexDig (c.toNat % 16)]
  else [c]

/-- `JSON.stringify` rendering of a string literal, quotes included. -/
def escStr (s : Str) : Str :=
  '"' :: s.foldr (fun c acc => escChar c ++ acc) ['"']

mutual
/-- Compact `JSON.stringify(v)` (no indent), as used for `JSON.stringify(item)` and
`getToolInputString`. -/
def stringifyC : Json → Str
  | .null => txt "null"
  | .bool true => txt "true"
  | .bool false => txt "false"
  | .num m e => numRender m e
  | .str s => escStr s
  | .arr l => '[' :: (stringifyCList l ++ [']'])
  | .obj f => '\x7b' :: (stringifyCObj f ++ ['\x7d'])
/-- Compact rendering of array elements, comma separated. -/
def stringifyCList : JsonList → Str
  | .nil => []
  | .cons h .nil => stringifyC h
  | .cons h (.cons h2 t) => stringifyC h ++ ',' :: stringifyCList (.cons h2 t)
/-- Compact rendering of object members, comma separated. -/
def stringifyCObj : JsonObj → Str
  | .nil => []
  | .cons k v .nil => escStr k ++ ':' :: stringifyC v
  | .cons k v (.cons k2 v2 t) =>
    escStr k ++ ':' :: stringifyC v ++ ',' :: stringifyCObj (.cons k2 v2 t)
end

/-- Indentation for `JSON.stringify(v, null, 2)` at nesting depth `d`. -/
def indentS (d : Nat) : Str := List.replicate (2 * d) ' '

mutual
/-- Pretty `JSON.stringify(v, null, 2)` at nesting depth `d`, as used by
`formatToolResult`'s fallback branch. -/
def stringifyP (d : Nat) : Json → Str
  | .null => txt "null"
  | .bool true => txt "true"
  | .bool false => txt "false"
  | .num m e => numRender m e
  | .str s => escStr s
  | .arr .nil => ['[', ']']
  | .arr (.cons h t) => '[' :: '\n' :: (stringifyPList (d + 1) (.cons h t) ++ '\n' :: (indentS d ++ [']']))
  | .obj .nil => ['\x7b', '\x7d']
  | .obj (.cons k v t) =>
    '\x7b' :: '\n' :: (stringifyPObj (d + 1) (.cons k v t) ++ '\n' :: (indentS d ++ ['\x7d']))
/-- Pretty rendering of array elements at depth `d`. -/
def stringifyPList (d : Nat) : JsonList → Str
  | .nil => []
  | .cons h .nil => indentS d ++ stringifyP d h
  | .cons h (.cons h2 t) =>
    indentS d ++ stringifyP d h ++ ',' :: '\n' :: stringifyPList d (.cons h2 t)
/-- Pretty rendering of object members at depth `d`. -/
def stringifyPObj (d : Nat) : JsonObj → Str
  | .nil => []
  | .cons k v .nil => indentS d ++ escStr k ++ ':' :: ' ' :: stringifyP d v
  | .cons k v (.cons k2 v2 t) =>
    indentS d ++ escStr k ++ ':' :: ' ' :: stringifyP d v ++ ',' :: '\n' :: stringifyPObj d (.cons k2 v2 t)
end

mutual
/-- JS string coercion `String(v)` / template interpolation, used where the source
appends a payload field to a string accumulator.  In every reachable payload these
fields are strings; the other cases follow JS coercion (objects print as
`[object Object]`, arrays join their elements with commas). -/
def jsToStr : Json → Str
  | .null => txt "null"
  | .bool true => txt "true"
  | .bool false => txt "false"
  | .num m e => numRender m e
  | .str s => s
  | .arr l => jsToStrList l
  | .obj _ => txt "[object Object]"
/-- JS `Array.prototype.toString`: elements joined with commas. -/
def jsToStrList : JsonList → Str
  | .nil => []
  | .cons h .nil => jsToStr h
  | .cons h (.cons h2 t) => jsToStr h ++ ',' :: jsToStrList (.cons h2 t)
end

/-! ### JSON parser (`JSON.parse` / `safeJsonParse`) -/

/-- JSON grammar whitespace. -/
def isJsonWs (c : Char) : Bool := c = ' ' || c = '\t' || c = '\n' || c = '\r'

/-- ASCII digit test. -/
def isDigitC (c : Char) : Bool := '0' ≤ c && c ≤ '9'

/-- Value of an ASCII digit. -/
def digVal (c : Char) : Nat := c.toNat - 48

/-- Value of a hexadecimal digit, if any. -/
def hexV (c : Char) : Option Nat :=
  if '0' ≤ c ∧ c ≤ '9' then some (c.toNat - 48)
  else if 'a' ≤ c ∧ c ≤ 'f' then some (c.toNat - 87)
  else if 'A' ≤ c ∧ c ≤ 'F' then some (c.toNat - 55)
  else none

/-- Numeric value of a digit run. -/
def digitsVal (ds : Str) : Nat := ds.foldl (fun a c => a * 10 + digVal c) 0

/-- Parse the body of a JSON string literal after the opening quote, handling the
escape sequences of RFC 8259; raw control characters are rejected as in `JSON.parse`. -/
def parseStrRest : Str → Option (Str × Str)
  | [] => none
  | c :: r =>
    if c = '"' then some ([], r)
    else if c = '\\' then
      match r with
      | [] => none
      | e :: r2 =>
        if e = '"' ∨ e = '\\' ∨ e = '/' then (parseStrRest r2).map (fun p => (e :: p.1, p.2))
        else if e = 'n' then (parseStrRest r2).map (fun p => ('\n' :: p.1, p.2))
        else if e = 't' then (parseStrRest r2).map (fun p => ('\t' :: p.1, p.2))
        else if e = 'r' then (parseStrRest r2).map (fun p => ('\r' :: p.1, p.2))
        else if e = 'b' then (parseStrRest r2).map (fun p => ('\x08' :: p.1, p.2))
        else if e = 'f' then (parseStrRest r2).map (fun p => ('\x0c' :: p.1, p.2))
        else if e = 'u' then
          match r2 with
          | h1 :: h2 :: h3 :: h4 :: r3 =>
            match hexV h1, hexV h2, hexV h3, hexV h4 with
            | some a, some b, some c3, some d =>
              (parseStrRest r3).map (fun p => (Char.ofNat (((a * 16 + b) * 16 + c3) * 16 + d) :: p.1, p.2))
            | _, _, _, _ => none
          | _ => none
        else none
    else if c.toNat < 32 then none
    else (parseStrRest r).map (fun p => (c :: p.1, p.2))

/-- Parse a JSON number at the head of the input. -/
def parseNumber (s : Str) : Option (Json × Str) :=
  let (neg, s1) := match s with
    | '-' :: r => (true, r)
    | _ => (false, s)
  match s1 with
  | [] => none
  | c :: r =>
    if ¬ (isDigitC c = true) then none
    else
      let ip : Str × Str := if c = '0' then (['0'], r) else (s1.takeWhile isDigitC, s1.dropWhile isDigitC)
      let fracRes : Option (Str × Str) := match ip.2 with
        | '.' :: r2 =>
          if r2.takeWhile isDigitC = [] then none
          else some (r2.takeWhile isDigitC, r2.dropWhile isDigitC)
        | _ => some ([], ip.2)
      match fracRes with
      | none => none
      | some (fd, s3) =>
        let (expOk, expVal, s4) : Bool × Int × Str := match s3 with
          | 'e' :: '-' :: r3 =>
            (¬ (r3.takeWhile isDigitC = []), -(digitsVal (r3.takeWhile isDigitC) : Int), r3.dropWhile isDigitC)
          | 'e' :: '+' :: r3 =>
            (¬ (r3.takeWhile isDigitC = []), (digitsVal (r3.takeWhile isDigitC) : Int), r3.dropWhile isDigitC)
          | 'e' :: r3 =>
            (¬ (r3.takeWhile isDigitC = []), (digitsVal (r3.takeWhile isDigitC) : Int), r3.dropWhile isDigitC)
          | 'E' :: '-' :: r3 =>
            (¬ (r3.takeWhile isDigitC = []), -(digitsVal (r3.takeWhile isDigitC) : Int), r3.dropWhile isDigitC)
          | 'E' :: '+' :: r3 =>
            (¬ (r3.takeWhile isDigitC = []), (digitsVal (r3.takeWhile isDigitC) : Int), r3.dropWhile isDigitC)
          | 'E' :: r3 =>
            (¬ (r3.takeWhile isDigitC = []), (digitsVal (r3.takeWhile isDigitC) : Int), r3.dropWhile isDigitC)
          | _ => (true, 0, s3)
        if ¬ (expOk = true) then none
        else
          let mAbs : Nat := digitsVal (ip.1 ++ fd)
          let m : Int := if neg then -(mAbs : Int) else (mAbs : Int)
          some (Json.num m (expVal - (fd.length : Int)), s4)

mutual
/-- Recursive-descent JSON value parser; the fuel argument only bounds nesting and is
instantiated generously by `jsonParse`. -/
def parseValue : Nat → Str → Option (Json × Str)
  | 0, _ => none
  | Nat.succ fuel, s =>
    match s.dropWhile isJsonWs with
    | [] => none
    | c :: r =>
      if c = '\x7b' then
        match r.dropWhile isJsonWs with
        | '\x7d' :: r2 => some (.obj .nil, r2)
        | r1 => (parseObjItems fuel r1).map (fun p => (Json.obj p.1, p.2))
      else if c = '[' then
        match r.dropWhile isJsonWs with
        | ']' :: r2 => some (.arr .nil, r2)
        | r1 => (parseArrItems fuel r1).map (fun p => (Json.arr p.1, p.2))
      else if c = '"' then (parseStrRest r).map (fun p => (Json.str p.1, p.2))
      else if c = 't' then
        match r with
        | 'r' :: 'u' :: 'e' :: r2 => some (.bool true, r2)
        | _ => none
      else if c = 'f' then
        match r with
        | 'a' :: 'l' :: 's' :: 'e' :: r2 => some (.bool false, r2)
        | _ => none
      else if c = 'n' then
        match r with
        | 'u' :: 'l' :: 'l' :: r2 => some (.null, r2)
        | _ => none
      else parseNumber (c :: r)
/-- Parse `value (, value)* ]` inside an array. -/
def parseArrItems : Nat → Str → Option (JsonList × Str)
  | 0, _ => none
  | Nat.succ fuel, s =>
    match parseValue fuel s with
    | none => none
    | some (v, rest) =>
      match rest.dropWhile isJsonWs with
      | ',' :: r2 =>
        match parseArrItems fuel r2 with
        | none => none
        | some (l, r3) => some (.cons v l, r3)
      | ']' :: r2 => some (.cons v .nil, r2)
      | _ => none
/-- Parse `"key" : value (, "key" : value)* }` inside an object. -/
def parseObjItems : Nat → Str → Option (JsonObj × Str)
  | 0, _ => none
  | Nat.succ fuel, s =>
    match s.dropWhile isJsonWs with
    | '"' :: r =>
      match parseStrRest r with
      | none => none
      | some (k, r1) =>
        match r1.dropWhile isJsonWs with
        | ':' :: r3 =>
          match parseValue fuel r3 with
          | none => none
          | some (v, r4) =>
            match r4.dropWhile isJsonWs with
            | ',' :: r6 =>
              match parseObjItems fuel r6 with
              | none => none
              | some (o, r7) => some (.cons k v o, r7)
            | '\x7d' :: r6 => some (.cons k v .nil, r6)
            | _ => none
        | _ => none
    | _ => none
end

/-- Model of `JSON.parse` as wrapped by `safeJsonParse`: `none` on any parse error
(including trailing garbage), `some v` on success. -/
def jsonParse (s : Str) : Option Json :=
  match parseValue (2 * s.length + 4) s with
  | none => none
  | some (v, rest) => if rest.dropWhile isJsonWs = [] then some v else none

/-! ### Delta accumulator and message assembler (`generateWithAnthropic`) -/

/-- An in-progress tool call record (`ToolCallState` in the source): id and name fixed
by the `tool_use` block start, `input` an append-only raw JSON fragment buffer. -/
structure TCState where
  id : Str
  name : Str
  input : Str
deriving DecidableEq

/-- Kind of an incremental notification sent through the LangGraph writer. -/
inductive NotifType where
  | content
  | reasoning
deriving DecidableEq

/-- One incremental notification (`content_chunk` / `reasoning_chunk`); the shared
`message_id` is constant over a call and omitted from the model. -/
structure Notif where
  ntype : NotifType
  chunk : Str
deriving DecidableEq

/-- Mutable accumulator state of one provider call: text buffer, reasoning buffer,
index-keyed tool-call map (as an insertion-ordered association list, mirroring the JS
object), plus the list of notifications emitted so far. -/
structure SState where
  text : Str
  reasoning : Str
  tools : List (Nat × TCState)
  notifs : List Notif
deriving DecidableEq

/-- The accumulator at the start of a provider call. -/
def initState : SState := ⟨[], [], [], []⟩

/-- `toolCallsMap[i] = v` on the association-list model of the JS object. -/
def setKey : List (Nat × TCState) → Nat → TCState → List (Nat × TCState)
  | [], i, v => [(i, v)]
  | (k, w) :: t, i, v => if k = i then (i, v) :: t else (k, w) :: setKey t i v

/-- `toolCallsMap[i]` lookup. -/
def getKey : List (Nat × TCState) → Nat → Option TCState
  | [], _ => none
  | (k, w) :: t, i => if k = i then some w else getKey t i

/-- `input_json_delta` handling: append to the record at `i`, creating the empty
placeholder record first when none exists yet. -/
def appendInput (m : List (Nat × TCState)) (i : Nat) (t : Str) : List (Nat × TCState) :=
  match getKey m i with
  | some tc => setKey m i ⟨tc.id, tc.name, tc.input ++ t⟩
  | none => setKey m i ⟨[], [], t⟩

/-- `payload.index as number`, used as the map key.  The provider only sends small
natural indexes; other shapes are mapped to 0. -/
def asIndex : Option Json → Nat
  | some (.num m e) => if 0 ≤ m ∧ e = 0 then m.toNat else 0
  | _ => 0

/-- JS `v || ""` followed by use as a string (`block.id || ""`, `block.name || ""`). -/
def strOrEmpty : Option Json → Str
  | some v => if jsTruthy v then jsToStr v else []
  | none => []

/-- Append a text fragment and emit its `content_chunk` notification. -/
def pushText (s : SState) (t : Str) : SState :=
  ⟨s.text ++ t, s.reasoning, s.tools, s.notifs ++ [⟨.content, t⟩]⟩

/-- Append a reasoning fragment and emit its `reasoning_chunk` notification. -/
def pushReasoning (s : SState) (t : Str) : SState :=
  ⟨s.text, s.reasoning ++ t, s.tools, s.notifs ++ [⟨.reasoning, t⟩]⟩

/-- `getToolInputString`: pre-seed of a tool call's argument buffer from an inline
`input` on the block start. -/
def getToolInputString : Option Json → Str
  | none => []
  | some v =>
    if ¬ (jsTruthy v = true) then []
    else match v with
      | .str s => s
      | .obj .nil => []
      | .obj f => stringifyC (.obj f)
      | _ => []

/-- The `content_block_start` handler of the stream loop. -/
def handleStart (s : SState) (payload : Json) : SState :=
  let block := match getTruthy payload (txt "content_block") with
    | some b => b
    | none => Json.obj .nil
  let index := asIndex (getField payload (txt "index"))
  if typeIs block (txt "text") && truthyField block (txt "text") then
    pushText s (jsToStr ((getTruthy block (txt "text")).getD (Json.str [])))
  else if (typeIs block (txt "thinking") || typeIs block (txt "redacted_thinking"))
      && (truthyField block (txt "thinking") || truthyField block (txt "text")) then
    let tt := match getTruthy block (txt "thinking") with
      | some v => v
      | none => match getTruthy block (txt "text") with
        | some v => v
        | none => Json.str []
    pushReasoning s (jsToStr tt)
  else if typeIs block (txt "tool_use") then
    ⟨s.text, s.reasoning,
      setKey s.tools index
        ⟨strOrEmpty (getField block (txt "id")), strOrEmpty (getField block (txt "name")),
          getToolInputString (getField block (txt "input"))⟩,
      s.notifs⟩
  else s

/-- The `content_block_delta` handler of the stream loop. -/
def handleDelta (s : SState) (payload : Json) : SState :=
  let delta := match getTruthy payload (txt "delta") with
    | some d => d
    | none => Json.obj .nil
  let index := asIndex (getField payload (txt "index"))
  if typeIs delta (txt "text_delta") && truthyField delta (txt "text") then
    pushText s (jsToStr ((getTruthy delta (txt "text")).getD (Json.str [])))
  else if (typeIs delta (txt "thinking_delta") || typeIs delta (txt "redacted_thinking_delta"))
      && (truthyField delta (txt "thinking") || truthyField delta (txt "text")) then
    let tt := match getTruthy delta (txt "thinking") with
      | some v => v
      | none => match getTruthy delta (txt "text") with
        | some v => v
        | none => Json.str []
    pushReasoning s (jsToStr tt)
  else if typeIs delta (txt "input_json_delta") && truthyField delta (txt "partial_json") then
    ⟨s.text, s.reasoning,
      appendInput s.tools index (jsToStr ((getTruthy delta (txt "partial_json")).getD (Json.str []))),
      s.notifs⟩
  else s

/-- `payload.error?.message || payload.message || "Unknown streaming error"`. -/
def errMsgOf (p : Json) : Json :=
  let m1 : Option Json := match getField p (txt "error") with
    | some e => getTruthy e (txt "message")
    | none => none
  match m1 with
  | some v => v
  | none => match getTruthy p (txt "message") with
    | some v => v
    | none => Json.str (txt "Unknown streaming error")

/-- Process one decoded frame: drop `[DONE]` frames and — per `if (!payload)
continue;` — frames whose payload does not parse or parses to a falsy JSON value
(`null`, `0`, `false`, `""`); then raise the transport failure on an `error` event,
otherwise run the block-start and delta handlers. -/
def stepFrame (s : SState) (f : Frame) : Except Json SState :=
  if f.data = txt "[DONE]" then .ok s
  else match jsonParse f.data with
    | none => .ok s
    | some payload =>
      if jsTruthy payload = false then .ok s
      else if f.event = txt "error" then .error (errMsgOf payload)
      else
        let s1 := if f.event = txt "content_block_start" then handleStart s payload else s
        let s2 := if f.event = txt "content_block_delta" then handleDelta s1 payload else s1
        .ok s2

/-- Run the stream loop over decoded frames; on an error event the state reached so
far (in particular the notifications already emitted) is returned together with the
raised failure payload. -/
def runFrames : List Frame → SState → SState × Option Json
  | [], s => (s, none)
  | f :: fs, s =>
    match stepFrame s f with
    | .error e => (s, some e)
    | .ok s1 => runFrames fs s1

/-- Ordering of tool-call map entries by stream index, used by the final
`.sort((a, b) => Number(a) - Number(b))`. -/
def keyLE (a b : Nat × TCState) : Prop := a.1 ≤ b.1

instance : DecidableRel keyLE := fun a b => Nat.decLe a.1 b.1

instance : IsTotal (Nat × TCState) keyLE := ⟨fun a b => Nat.le_total a.1 b.1⟩

instance : IsTrans (Nat × TCState) keyLE := ⟨fun _ _ _ h1 h2 => Nat.le_trans h1 h2⟩

/-- The tool-call map entries sorted ascending by stream index (the net effect of
`Object.entries(toolCallsMap).sort((a, b) => Number(a) - Number(b))`: keys are
distinct, so any correct sort produces the same list). -/
def sortedToolEntries (m : List (Nat × TCState)) : List (Nat × TCState) :=
  List.insertionSort keyLE m

/-- `parseToolArgs`: parse an accumulated argument buffer, substituting the empty
object for the empty buffer, for parse failures, and for falsy parsed values. -/
def parseToolArgs (input : Str) : Json :=
  if input = [] then Json.obj .nil
  else match jsonParse input with
    | some v => if jsTruthy v then v else Json.obj .nil
    | none => Json.obj .nil

/-- A finalized tool call on the assembled assistant message. -/
structure FormattedTC where
  name : Str
  args : Json
  id : Str
deriving DecidableEq

/-- The assembled assistant message (`new AIMessage({...})` at the end of
`generateWithAnthropic`). -/
structure Assembled where
  content : Str
  tool_calls : Option (List FormattedTC)
  reasoning_content : Option Str
deriving DecidableEq

/-- Finalize one sorted map entry into a tool call. -/
def fmtEntry (e : Nat × TCState) : FormattedTC :=
  ⟨e.2.name, parseToolArgs e.2.input, e.2.id⟩

/-- The message assembler: sort the tool-call map by stream index, parse each argument
buffer, and build the final assistant message. -/
def assemble (s : SState) : Assembled :=
  let fmt := (sortedToolEntries s.tools).map fmtEntry
  ⟨s.text, if fmt.length > 0 then some fmt else none,
    if s.reasoning = [] then none else some s.reasoning⟩

/-- The full generate call over decoded frames: a transport failure (the thrown
error), or the notifications plus the assembled message. -/
def generateFromFrames (frames : List Frame) : Except Json (List Notif × Assembled) :=
  match runFrames frames initState with
  | (_, some e) => .error e
  | (s, none) => .ok (s.notifs, assemble s)

/-! ### Tool result formatting (`src/mcp/tools.ts`) -/

/-- The fixed message returned for a falsy tool result. -/
def noOutputMsg : Str := txt "Tool executed successfully with no output"

/-- Textual rendering of one item of an MCP `content` array.  For a `text` item the
source returns `item.text` from the `.map` callback; `Array.prototype.join` then
renders a missing or `null` value as the empty string. -/
def renderContentItem (item : Json) : Str :=
  if typeIs item (txt "text") then
    match getField item (txt "text") with
    | none => []
    | some .null => []
    | some v => jsToStr v
  else if typeIs item (txt "image") then
    txt "[Image: " ++ (match getTruthy item (txt "mimeType") with
      | some v => jsToStr v
      | none => txt "unknown") ++ [']']
  else if typeIs item (txt "resource") then
    txt "[Resource: " ++ (match getTruthy item (txt "uri") with
      | some v => jsToStr v
      | none => txt "unknown") ++ [']']
  else stringifyC item

/-- Plain list view of an array spine. -/
def jsonListToList : JsonList → List Json
  | .nil => []
  | .cons h t => h :: jsonListToList t

/-- `formatToolResult`: falsy results map to the fixed message; a result with a
`content` array joins the item renderings with newlines; a string result is returned
verbatim; anything else is pretty-printed with `JSON.stringify(result, null, 2)`. -/
def formatToolResult (result : Json) : Str :=
  if ¬ (jsTruthy result = true) then noOutputMsg
  else match getField result (txt "content") with
    | some (.arr items) => joinWithChar '\n' ((jsonListToList items).map renderContentItem)
    | _ =>
      match result with
      | .str s => s
      | _ => stringifyP 0 result

/-! ### Conversation messages and the two graph nodes (`src/index.ts`, HITL variant) -/

/-- A tool call requested by an assistant message; a missing id is modelled as `[]`. -/
structure SToolCall where
  id : Str
  name : Str
  args : Json
deriving DecidableEq

/-- A `ToolMessage`, with the error flags carried in `additional_kwargs`. -/
structure SToolMsg where
  content : Str
  tool_call_id : Str
  name : Str
  error : Bool
  hitl_rejected : Bool
deriving DecidableEq

/-- Conversation message variants. -/
inductive SMessage where
  | system (content : Str)
  | human (content : Str)
  | ai (content : Str) (tool_calls : List SToolCall)
  | tool (msg : SToolMsg)
deriving DecidableEq

/-- `createToolMessage` from `src/mcp/tools.ts`. -/
def createToolMessage (result : Json) (toolCallId toolName : Str) : SToolMsg :=
  ⟨formatToolResult result, toolCallId, toolName, false, false⟩

/-- `createErrorToolMessage` from `src/mcp/tools.ts`. -/
def createErrorToolMessage (errMsg : Str) (toolCallId toolName : Str) : SToolMsg :=
  ⟨txt "Error executing tool: " ++ errMsg, toolCallId, toolName, true, false⟩

/-- The fixed reject marker string. -/
def HITL_REJECT_MARKER : Str := txt "[HITL_REJECTED]"

/-- `createRejectionToolMessage`: reject marker content, error flag set. -/
def createRejectionToolMessage (toolCallId toolName : Str) : SToolMsg :=
  ⟨HITL_REJECT_MARKER ++ txt " User rejected deletion request.", toolCallId, toolName, true, true⟩

/-- `isDeleteWindowTool`: the sensitive-call predicate of the approval gate. -/
def isDeleteWindowTool (name : Str) : Bool :=
  let normalized := lower name
  if ¬ (strHasPre (txt "roxybrowser-openapi__") normalized = true) then false
  else
    let isDeleteAction := hasSub (txt "delete") normalized || hasSub (txt "remove") normalized
    let isBrowserTarget := hasSub (txt "browser") normalized || hasSub (txt "window") normalized
    isDeleteAction && isBrowserTarget

/-- Modelled from the spec: the spec's description of the sensitive-call predicate —
a call that "both target[s] a windowing/browser resource and perform[s] a
delete/remove action" — with no further condition.  Used to compare the claimed
predicate against `isDeleteWindowTool`. -/
def specDeleteBrowserName (name : Str) : Bool :=
  let n := lower name
  (hasSub (txt "delete") n || hasSub (txt "remove") n)
    && (hasSub (txt "browser") n || hasSub (txt "window") n)

/-- `isRejectedToolMessage`: a tool message whose (string) content contains the reject
marker. -/
def isRejectedToolMessage : SMessage → Bool
  | .tool m => hasSub HITL_REJECT_MARKER m.content
  | _ => false

/-- One entry of `action_requests` of a HITL interrupt. -/
structure ActionRequest where
  name : Str
  args : Json
  description : Str
deriving DecidableEq

/-- One entry of `review_configs` of a HITL interrupt. -/
structure ReviewConfig where
  action_name : Str
  allowed_decisions : List Str
deriving DecidableEq

/-- The structured HITL approval request surfaced by `interrupt`. -/
structure HITLRequest where
  action_requests : List ActionRequest
  review_configs : List ReviewConfig
deriving DecidableEq

/-- `buildDeleteInterrupt`. -/
def buildDeleteInterrupt (name : Str) (args : Json) : HITLRequest :=
  ⟨[⟨name, args,
      txt "This action will delete RoxyBrowser window(s). Please confirm before continuing."⟩],
    [⟨name, [txt "approve", txt "reject"]⟩]⟩

/-- `getDecision`: an object resume payload with a non-empty `decisions` array yields
its first element; every other shape yields no decision. -/
def getDecision (rv : Json) : Option Json :=
  match rv with
  | .obj fs =>
    match findField fs (txt "decisions") with
    | some (.arr (.cons d _)) => some d
    | _ => none
  | _ => none

/-- `decision.edited_action?.args` when truthy. -/
def editedArgsOpt (d : Json) : Option Json :=
  match getField d (txt "edited_action") with
  | some ea => getTruthy ea (txt "args")
  | none => none

/-- Outcome of one run of the `tools` node: either a pending suspension (the
`GraphInterrupt` raised by `interrupt`, carrying the HITL request) or the completed
list of tool messages.  Both carry the instrumentation log of dispatched calls
`(tool_call_id, name, args)` — a dispatch that happened is observable even if the
node run is later abandoned. -/
inductive ToolsResult where
  | suspended (req : HITLRequest) (log : List (Str × Str × Json))
  | done (msgs : List SToolMsg) (log : List (Str × Str × Json))
deriving DecidableEq

/-- The idempotent replay guard `toolCall.id && toolMessageIds.has(toolCall.id)`. -/
def replayed (existing : List Str) (c : SToolCall) : Bool :=
  decide (c.id ≠ [] ∧ c.id ∈ existing)

/-- The loop body of the `tools` node.  `resumes` is the sequence of resume values the
surrounding engine will feed to successive `interrupt` calls; an empty sequence at an
interrupt is the first (suspending) execution. -/
def toolsGo (dispatch : Str → Json → Except Str Json) (existing : List Str) :
    List SToolCall → List Json → List SToolMsg → List (Str × Str × Json) → ToolsResult
  | [], _, msgs, log => .done msgs log
  | c :: rest, resumes, msgs, log =>
    if replayed existing c then toolsGo dispatch existing rest resumes msgs log
    else if isDeleteWindowTool c.name then
      match resumes with
      | [] => .suspended (buildDeleteInterrupt c.name c.args) log
      | rv :: rs =>
        match getDecision rv with
        | none => .done (msgs ++ [createRejectionToolMessage c.id c.name]) log
        | some d =>
          if jsTruthy d = false ∨ typeIs d (txt "reject") = true then
            .done (msgs ++ [createRejectionToolMessage c.id c.name]) log
          else
            let args := if typeIs d (txt "edit") then (editedArgsOpt d).getD c.args else c.args
            match dispatch c.name args with
            | .ok r =>
              toolsGo dispatch existing rest rs
                (msgs ++ [createToolMessage r c.id c.name]) (log ++ [(c.id, c.name, args)])
            | .error e =>
              toolsGo dispatch existing rest rs
                (msgs ++ [createErrorToolMessage e c.id c.name]) (log ++ [(c.id, c.name, args)])
    else
      match dispatch c.name c.args with
      | .ok r =>
        toolsGo dispatch existing rest resumes
          (msgs ++ [createToolMessage r c.id c.name]) (log ++ [(c.id, c.name, c.args)])
      | .error e =>
        toolsGo dispatch existing rest resumes
          (msgs ++ [createErrorToolMessage e c.id c.name]) (log ++ [(c.id, c.name, c.args)])

/-- `lastMessage.tool_calls || []` on the last history entry. -/
def lastToolCalls (msgs : List SMessage) : List SToolCall :=
  match msgs.getLast? with
  | some (.ai _ tcs) => tcs
  | _ => []

/-- Ids of messages already carrying a (truthy) `tool_call_id` in history. -/
def existingToolIds (msgs : List SMessage) : List Str :=
  msgs.filterMap (fun m => match m with
    | .tool tm => if tm.tool_call_id = [] then none else some tm.tool_call_id
    | _ => none)

/-- The `tools` node: replay-guarded, approval-gated dispatch of the tool calls of the
last assistant message. -/
def toolsNode (dispatch : Str → Json → Except Str Json) (msgs : List SMessage)
    (resumes : List Json) : ToolsResult :=
  toolsGo dispatch (existingToolIds msgs) (lastToolCalls msgs) resumes [] []

/-- The fixed assistant message announcing a rejection. -/
def fixedRejectionAI : SMessage :=
  .ai (txt "删除操作已被用户拒绝，我将停止执行此操作。如需继续，请重新发起请求。") []

/-- The `chat` node: short-circuit to the fixed rejection announcement when the most
recent entry is a rejected tool result, otherwise call the model with the full
history; the boolean records whether the model provider was invoked. -/
def chatNode (model : List SMessage → SMessage) (msgs : List SMessage) : SMessage × Bool :=
  match msgs.getLast? with
  | some m => if isRejectedToolMessage m then (fixedRejectionAI, false) else (model msgs, true)
  | none => (model msgs, true)

/-! ### MCP client (`src/mcp/client.ts`) -/

/-- `executeMCPTool`: split the qualified name on `"__"`, route to the named server,
and label any execution failure.  The second component is the instrumentation log of
actual server invocations `(serverName, actualToolName, args)`. -/
def executeMCPTool (servers : List (Str × (Str → Json → Except Str Json)))
    (toolName : Str) (args : Json) : Except Str Json × List (Str × Str × Json) :=
  match splitS2 '_' '_' toolName with
  | [serverName, actualToolName] =>
    match servers.find? (fun p => decide (p.1 = serverName)) with
    | none => (.error (txt "MCP server not found: " ++ serverName), [])
    | some p =>
      match p.2 actualToolName args with
      | .ok r => (.ok r, [(serverName, actualToolName, args)])
      | .error e => (.error (txt "Tool execution failed: " ++ e), [(serverName, actualToolName, args)])
  | _ => (.error (txt "Invalid tool name format: " ++ toolName), [])

/-- The advertised (OpenAI-format) tool names built by `getMCPTools`: each server's
tools under `serverName__toolName`. -/
def getMCPToolNames : List (Str × List Str) → List Str
  | [] => []
  | (sn, ts) :: rest => ts.map (fun tn => sn ++ txt "__" ++ tn) ++ getMCPToolNames rest

/-- The tool message produced for one dispatched call: the `try`/`catch` around
`executeMCPTool` in the `tools` node. -/
def mkDispatchMsg (r : Except Str Json) (c : SToolCall) : SToolMsg :=
  match r with
  | .ok v => createToolMessage v c.id c.name
  | .error e => createErrorToolMessage e c.id c.name

/-- The dispatch instrumentation log of a `tools` node outcome. -/
def logOf : ToolsResult → List (Str × Str × Json)
  | .suspended _ lg => lg
  | .done _ lg => lg

/-- A dispatch stub that always succeeds with the string `"done"`. -/
def okDispatch : Str → Json → Except Str Json := fun _ _ => .ok (Json.str (txt "done"))

/-- A sensitive tool call (delete of a RoxyBrowser window). -/
def sensCall : SToolCall :=
  ⟨txt "t1", txt "roxybrowser-openapi__deleteBrowserWindow", Json.obj .nil⟩

/-- An ordinary (non-sensitive) tool call. -/
def normCall : SToolCall := ⟨txt "t2", txt "server__echo", Json.obj .nil⟩

/-- A resume payload carrying the decision `{type: "reject"}`. -/
def rejectRv : Json :=
  Json.obj (.cons (txt "decisions")
    (.arr (.cons (Json.obj (.cons (txt "type") (.str (txt "reject")) .nil)) .nil)) .nil)

/-- A resume payload carrying a decision with the unrecognized type `"banana"`. -/
def bananaRv : Json :=
  Json.obj (.cons (txt "decisions")
    (.arr (.cons (Json.obj (.cons (txt "type") (.str (txt "banana")) .nil)) .nil)) .nil)

/-- A resume payload whose `decisions` array holds the single falsy element `null`. -/
def nullDecRv : Json :=
  Json.obj (.cons (txt "decisions") (.arr (.cons Json.null .nil)) .nil)

/-- A history whose last assistant message requests two calls, the first of which
already has a result in history. -/
def histC3 : List SMessage :=
  [.tool ⟨txt "r", txt "t1", txt "n", false, false⟩,
    .ai (txt "") [⟨txt "t1", txt "a__x", Json.null⟩, ⟨txt "t2", txt "a__y", Json.null⟩]]

/-- The `content` field of a result when it is an array (the
`result.content && Array.isArray(result.content)` test). -/
def contentArr (r : Json) : Option JsonList :=
  match getField r (txt "content") with
  | some (.arr l) => some l
  | _ => none

/-- A text delta frame contributing `"Hi"`. -/
def frameTextHi : Frame :=
  ⟨txt "content_block_delta",
    txt "\x7b\"type\":\"content_block_delta\",\"index\":0,\"delta\":\x7b\"type\":\"text_delta\",\"text\":\"Hi\"\x7d\x7d"⟩

/-- An `error` event frame with payload `{"message":"boom"}`. -/
def frameErrBoom : Frame :=
  ⟨txt "error", txt "\x7b\"message\":\"boom\"\x7d"⟩

/-- A `tool_use` block start at index 2 with id `t1`, name `x__y` and empty inline
input. -/
def frameToolStart : Frame :=
  ⟨txt "content_block_start",
    txt "\x7b\"type\":\"content_block_start\",\"index\":2,\"content_block\":\x7b\"type\":\"tool_use\",\"id\":\"t1\",\"name\":\"x__y\",\"input\":\x7b\x7d\x7d\x7d"⟩

/-- An `input_json_delta` frame at index 2 carrying the fragment `{"a":1`. -/
def frameArgsDelta1 : Frame :=
  ⟨txt "content_block_delta",
    txt "\x7b\"type\":\"content_block_delta\",\"index\":2,\"delta\":\x7b\"type\":\"input_json_delta\",\"partial_json\":\"\x7b\\\"a\\\":1\"\x7d\x7d"⟩

/-- An `input_json_delta` frame at index 2 carrying the closing fragment `}`. -/
def frameArgsDelta2 : Frame :=
  ⟨txt "content_block_delta",
    txt "\x7b\"type\":\"content_block_delta\",\"index\":2,\"delta\":\x7b\"type\":\"input_json_delta\",\"partial_json\":\"\x7d\"\x7d\x7d"⟩

/-- A `tool_use` block start at index 5 (id `t5`, name `b__n5`), for the ordering
claim. -/
def frameTool5 : Frame :=
  ⟨txt "content_block_start",
    txt "\x7b\"type\":\"content_block_start\",\"index\":5,\"content_block\":\x7b\"type\":\"tool_use\",\"id\":\"t5\",\"name\":\"b__n5\"\x7d\x7d"⟩

/-- A `tool_use` block start at index 1 (id `t0`, name `b__n0`), arriving after
index 5. -/
def frameTool1 : Frame :=
  ⟨txt "content_block_start",
    txt "\x7b\"type\":\"content_block_start\",\"index\":1,\"content_block\":\x7b\"type\":\"tool_use\",\"id\":\"t0\",\"name\":\"b__n0\"\x7d\x7d"⟩

/-! ### Lemmas: frame extraction -/

/-- Induction along the two-character lookahead structure of the scanners. -/
theorem twoStepInduction {motive : Str → Prop} (h0 : motive []) (h1 : ∀ a, motive [a])
    (h2 : ∀ a b t, motive t → motive (b :: t) → motive (a :: b :: t)) : ∀ s, motive s
  | [] => h0
  | [a] => h1 a
  | a :: b :: t => h2 a b t (twoStepInduction h0 h1 h2 t) (twoStepInduction h0 h1 h2 (b :: t))

/-- When no frame was extracted, the remainder is the whole buffer. -/
theorem extractA_nil_snd (c1 c2 : Char) :
    ∀ s : Str, (extractA c1 c2 s).1 = [] → (extractA c1 c2 s).2 = s := by
  refine twoStepInduction (by simp [extractA]) (by simp [extractA]) ?_
  intro a b t _ ih2
  by_cases hab : a = c1 ∧ b = c2
  · simp [extractA, hab]
  · rcases hbt : extractA c1 c2 (b :: t) with ⟨fs, r⟩
    cases fs with
    | nil =>
      have := ih2 (by rw [hbt])
      rw [hbt] at this
      simp only [extractA, if_neg hab, hbt]
      simpa using this
    | cons h fs' => simp [extractA, if_neg hab, hbt]

/-- Streaming composition: extracting from `x ++ y` is extracting from `x` and then
from the remainder followed by `y`. -/
theorem extractA_append (c1 c2 : Char) :
    ∀ x y : Str,
      extractA c1 c2 (x ++ y) =
        ((extractA c1 c2 x).1 ++ (extractA c1 c2 ((extractA c1 c2 x).2 ++ y)).1,
          (extractA c1 c2 ((extractA c1 c2 x).2 ++ y)).2) := by
  refine twoStepInduction ?_ ?_ ?_
  · intro y; simp [extractA]
  · intro a y; simp [extractA]
  · intro a b t ih1 ih2 y
    by_cases hab : a = c1 ∧ b = c2
    · have lhs : extractA c1 c2 ((a :: b :: t) ++ y) =
          (([] : Str) :: (extractA c1 c2 (t ++ y)).1, (extractA c1 c2 (t ++ y)).2) := by
        simp [extractA, hab]
      have rhs : extractA c1 c2 (a :: b :: t) =
          (([] : Str) :: (extractA c1 c2 t).1, (extractA c1 c2 t).2) := by
        simp [extractA, hab]
      rw [lhs, ih1 y, rhs]
      simp
    · rcases hbt : extractA c1 c2 (b :: t) with ⟨fs, r⟩
      cases fs with
      | nil =>
        have hr : r = b :: t := by
          have := extractA_nil_snd c1 c2 (b :: t) (by rw [hbt])
          rw [hbt] at this; exact this
        have hx : extractA c1 c2 (a :: b :: t) = ([], a :: b :: t) := by
          simp only [extractA, if_neg hab, hbt]
          rw [hr]
        rw [hx]
        simp
      | cons h fs' =>
        have hx : extractA c1 c2 (a :: b :: t) = ((a :: h) :: fs', r) := by
          simp [extractA, if_neg hab, hbt]
        have ih := ih2 y
        rw [hbt] at ih
        rcases hq : extractA c1 c2 (r ++ y) with ⟨q1, q2⟩
        rw [hq] at ih
        simp only [List.cons_append] at ih
        have hbty : extractA c1 c2 (b :: (t ++ y)) = (h :: (fs' ++ q1), q2) := ih
        have lhs : extractA c1 c2 ((a :: b :: t) ++ y) = ((a :: h) :: (fs' ++ q1), q2) := by
          simp [extractA, if_neg hab, hbty]
        rw [lhs, hx]
        simp [hq]

/-- Reconstruction: the extracted frames, each followed by the terminator, and the
remainder concatenate back to the original buffer. -/
theorem extractA_reconstruct (c1 c2 : Char) :
    ∀ s : Str, joinFrames c1 c2 (extractA c1 c2 s).1 ++ (extractA c1 c2 s).2 = s := by
  refine twoStepInduction (by simp [extractA, joinFrames]) (by simp [extractA, joinFrames]) ?_
  intro a b t ih1 ih2
  by_cases hab : a = c1 ∧ b = c2
  · obtain ⟨ha, hb⟩ := hab
    have hx : extractA c1 c2 (a :: b :: t) =
        (([] : Str) :: (extractA c1 c2 t).1, (extractA c1 c2 t).2) := by
      simp [extractA, ha, hb]
    rw [hx]
    simp only [joinFrames, List.foldr_cons, List.nil_append]
    rw [ha, hb]
    simpa [joinFrames] using ih1
  · rcases hbt : extractA c1 c2 (b :: t) with ⟨fs, r⟩
    cases fs with
    | nil =>
      have hr : r = b :: t := by
        have := extractA_nil_snd c1 c2 (b :: t) (by rw [hbt])
        rw [hbt] at this; exact this
      have hx : extractA c1 c2 (a :: b :: t) = ([], a :: b :: t) := by
        simp only [extractA, if_neg hab, hbt]
        rw [hr]
      rw [hx]
      simp [joinFrames]
    | cons h fs' =>
      have hx : extractA c1 c2 (a :: b :: t) = ((a :: h) :: fs', r) := by
        simp [extractA, if_neg hab, hbt]
      rw [hx]
      have := ih2
      rw [hbt] at this
      simp only [joinFrames, List.foldr_cons] at this ⊢
      simpa using this

/-- The remainder left by frame extraction never contains the terminator. -/
theorem extractA_rem_noSep (c1 c2 : Char) :
    ∀ s : Str, ¬ subInfix2 c1 c2 (extractA c1 c2 s).2 := by
  refine twoStepInduction ?_ ?_ ?_
  · rintro ⟨u, v, h⟩
    simp only [extractA] at h
    exact absurd (congrArg List.length h) (by simp; omega)
  · intro a
    rintro ⟨u, v, h⟩
    simp only [extractA] at h
    exact absurd (congrArg List.length h) (by simp; omega)
  · intro a b t ih1 ih2
    by_cases hab : a = c1 ∧ b = c2
    · have hx : extractA c1 c2 (a :: b :: t) =
          (([] : Str) :: (extractA c1 c2 t).1, (extractA c1 c2 t).2) := by
        obtain ⟨ha, hb⟩ := hab; simp [extractA, ha, hb]
      rw [hx]
      exact ih1
    · rcases hbt : extractA c1 c2 (b :: t) with ⟨fs, r⟩
      cases fs with
      | nil =>
        have hr : r = b :: t := by
          have := extractA_nil_snd c1 c2 (b :: t) (by rw [hbt])
          rw [hbt] at this; exact this
        have hx : extractA c1 c2 (a :: b :: t) = ([], a :: b :: t) := by
          simp only [extractA, if_neg hab, hbt]
          rw [hr]
        rw [hx]
        rintro ⟨u, v, h⟩
        cases u with
        | nil =>
          simp only [List.nil_append, List.cons.injEq] at h
          exact hab ⟨h.1, h.2.1⟩
        | cons x u' =>
          simp only [List.cons_append, List.cons.injEq] at h
          have hbt' : subInfix2 c1 c2 (b :: t) := ⟨u', v, h.2⟩
          have := ih2
          rw [hbt] at this
          simp only at this
          rw [hr] at this
          exact this hbt'
      | cons h0 fs' =>
        have hx : extractA c1 c2 (a :: b :: t) = ((a :: h0) :: fs', r) := by
          simp [extractA, if_neg hab, hbt]
        rw [hx]
        have := ih2
        rw [hbt] at this
        exact this

/-- If the buffer contains no terminator, no frame is extracted (so the buffer is
kept as remainder). -/
theorem extractA_noSep_nil (c1 c2 : Char) (s : Str) (h : ¬ subInfix2 c1 c2 s) :
    extractA c1 c2 s = ([], s) := by
  rcases hx : extractA c1 c2 s with ⟨fs, r⟩
  cases fs with
  | nil =>
    have := extractA_nil_snd c1 c2 s (by rw [hx])
    rw [hx] at this
    simp only at this
    rw [this]
  | cons f fs' =>
    exfalso
    apply h
    have hrec := extractA_reconstruct c1 c2 s
    rw [hx] at hrec
    simp only [joinFrames, List.foldr_cons] at hrec
    exact ⟨f, (fs'.foldr (fun fr acc => fr ++ c1 :: c2 :: acc) [] ++ r), by
      rw [← hrec]; simp [joinFrames]⟩

/-- The chunk-fold of the decoder equals one extraction pass over the concatenation:
the invariant behind fragmentation-invariance. -/
theorem feedChunks_foldl (chunks : List Str) :
    ∀ (acc : List Str) (buf : Str), ¬ subInfix2 '\n' '\n' buf →
      chunks.foldl feedStep (acc, buf) =
        (acc ++ (extractA '\n' '\n' (buf ++ chunks.foldr (· ++ ·) [])).1,
          (extractA '\n' '\n' (buf ++ chunks.foldr (· ++ ·) [])).2) := by
  induction chunks with
  | nil =>
    intro acc buf hbuf
    simp [extractA_noSep_nil '\n' '\n' buf hbuf]
  | cons c cs ih =>
    intro acc buf hbuf
    rcases he : extractA '\n' '\n' (buf ++ c) with ⟨e1, e2⟩
    have hstep : feedStep (acc, buf) c = (acc ++ e1, e2) := by
      simp [feedStep, he]
    have hrem : ¬ subInfix2 '\n' '\n' e2 := by
      have := extractA_rem_noSep '\n' '\n' (buf ++ c)
      rw [he] at this
      exact this
    have happ := extractA_append '\n' '\n' (buf ++ c) (cs.foldr (· ++ ·) [])
    rw [he] at happ
    simp only at happ
    calc (c :: cs).foldl feedStep (acc, buf)
        = cs.foldl feedStep (acc ++ e1, e2) := by rw [List.foldl_cons, hstep]
      _ = (acc ++ e1 ++ (extractA '\n' '\n' (e2 ++ cs.foldr (· ++ ·) [])).1,
            (extractA '\n' '\n' (e2 ++ cs.foldr (· ++ ·) [])).2) := ih _ _ hrem
      _ = (acc ++ (extractA '\n' '\n' (buf ++ (c :: cs).foldr (· ++ ·) [])).1,
            (extractA '\n' '\n' (buf ++ (c :: cs).foldr (· ++ ·) [])).2) := by
          simp only [List.foldr_cons, ← List.append_assoc]
          rw [happ]
          simp

/-- The fold over chunks equals extraction over the joined input. -/
theorem feedChunks_eq_join (chunks : List Str) :
    feedChunks chunks = extractA '\n' '\n' (chunks.foldr (· ++ ·) []) := by
  have := feedChunks_foldl chunks [] []
    (by rintro ⟨u, v, h⟩; exact absurd (congrArg List.length h) (by simp; omega))
  simpa [feedChunks] using this

/-- C6: the frame decoder is fragmentation-invariant — every way of splitting the raw
input text into fragments yields the identical decoded frame sequence — and a trailing
partial frame is never emitted: the emitted frames followed by their terminators,
together with the retained remainder, reconstruct the input exactly, and the remainder
(the only part dropped at end of stream) contains no terminator. -/
theorem frame_decoder_fragmentation_invariance (chunks : List Str) :
    decodeFrames chunks = decodeFrames [chunks.foldr (· ++ ·) []] ∧
    joinFrames '\n' '\n' (feedChunks chunks).1 ++ (feedChunks chunks).2 =
      chunks.foldr (· ++ ·) [] ∧
    ¬ subInfix2 '\n' '\n' (feedChunks chunks).2 := by
  have h1 := feedChunks_eq_join chunks
  have h2 : feedChunks [chunks.foldr (· ++ ·) []] =
      extractA '\n' '\n' (chunks.foldr (· ++ ·) []) := by
    rw [feedChunks_eq_join]
    simp
  refine ⟨?_, ?_, ?_⟩
  · simp [decodeFrames, h1, h2]
  · rw [h1]
    exact extractA_reconstruct _ _ _
  · rw [h1]
    exact extractA_rem_noSep _ _ _

/-! ### Lemmas: two-character split (`"__"` routing) -/

/-- A split is never empty. -/
theorem splitS2_ne_nil (c1 c2 : Char) : ∀ s : Str, splitS2 c1 c2 s ≠ [] := by
  refine twoStepInduction (by simp [splitS2]) (by simp [splitS2]) ?_
  intro a b t _ ih2
  by_cases hab : a = c1 ∧ b = c2
  · simp [splitS2, hab]
  · rcases hbt : splitS2 c1 c2 (b :: t) with _ | ⟨h, r⟩
    · exact absurd hbt (ih2 ·)
    · simp [splitS2, if_neg hab, hbt]

/-- A string containing the separator splits into at least two parts. -/
theorem splitS2_len_ge2 (c1 c2 : Char) :
    ∀ s : Str, subInfix2 c1 c2 s → 2 ≤ (splitS2 c1 c2 s).length := by
  refine twoStepInduction ?_ ?_ ?_
  · rintro ⟨u, v, h⟩
    exact absurd (congrArg List.length h) (by simp; omega)
  · rintro a ⟨u, v, h⟩
    exact absurd (congrArg List.length h) (by simp; omega)
  · intro a b t _ ih2 hsub
    by_cases hab : a = c1 ∧ b = c2
    · have h1 := splitS2_ne_nil c1 c2 t
      simp only [splitS2, if_pos hab, List.length_cons]
      cases hq : splitS2 c1 c2 t with
      | nil => exact absurd hq h1
      | cons x r => simp
    · obtain ⟨u, v, h⟩ := hsub
      cases u with
      | nil =>
        simp only [List.nil_append, List.cons.injEq] at h
        exact absurd ⟨h.1, h.2.1⟩ hab
      | cons x u' =>
        simp only [List.cons_append, List.cons.injEq] at h
        have hrec : subInfix2 c1 c2 (b :: t) := ⟨u', v, h.2⟩
        have := ih2 hrec
        rcases hbt : splitS2 c1 c2 (b :: t) with _ | ⟨h0, r⟩
        · exact absurd hbt (splitS2_ne_nil c1 c2 (b :: t) ·)
        · rw [hbt] at this
          simp only [splitS2, if_neg hab, hbt]
          simpa using this

/-- Unfolding of `splitS2` at a separator occurrence. -/
theorem splitS2_sep_head (c1 c2 : Char) (v : Str) :
    splitS2 c1 c2 (c1 :: c2 :: v) = [] :: splitS2 c1 c2 v := by
  simp [splitS2]

/-- Unfolding of `splitS2` when the head pair is not the separator. -/
theorem splitS2_cons_head (c1 c2 a b : Char) (t : Str) (hab : ¬ (a = c1 ∧ b = c2))
    (h0 : Str) (r : List Str) (hbt : splitS2 c1 c2 (b :: t) = h0 :: r) :
    splitS2 c1 c2 (a :: b :: t) = (a :: h0) :: r := by
  simp only [splitS2, if_neg hab, hbt]

/-- A qualified name `u ++ sep ++ v` whose second half `v` itself contains the
separator splits into at least three parts. -/
theorem splitS2_len_ge3 (c1 c2 : Char) (v : Str) (hv : subInfix2 c1 c2 v) :
    ∀ u : Str, 3 ≤ (splitS2 c1 c2 (u ++ c1 :: c2 :: v)).length := by
  intro u
  induction u with
  | nil =>
    rw [List.nil_append, splitS2_sep_head, List.length_cons]
    have := splitS2_len_ge2 c1 c2 v hv
    omega
  | cons x u' ih =>
    cases u' with
    | nil =>
      rw [List.cons_append, List.nil_append]
      by_cases hx : x = c1 ∧ c1 = c2
      · have hun : splitS2 c1 c2 (x :: c1 :: c2 :: v) = [] :: splitS2 c1 c2 (c2 :: v) := by
          simp only [splitS2, if_pos hx]
        have hsub : subInfix2 c1 c2 (c2 :: v) := by
          obtain ⟨p, q, hp⟩ := hv
          exact ⟨c2 :: p, q, by rw [hp]; rfl⟩
        have h2 := splitS2_len_ge2 c1 c2 (c2 :: v) hsub
        rw [hun, List.length_cons]
        omega
      · have hin := splitS2_sep_head c1 c2 v
        have hx2 := splitS2_cons_head c1 c2 x c1 (c2 :: v) hx [] (splitS2 c1 c2 v) hin
        rw [hx2, List.length_cons]
        have h2 := splitS2_len_ge2 c1 c2 v hv
        have hne := splitS2_ne_nil c1 c2 v
        cases hq : splitS2 c1 c2 v with
        | nil => exact absurd hq hne
        | cons z zs =>
          rw [hq] at h2
          simp only [List.length_cons] at h2 ⊢
          omega
    | cons y u'' =>
      simp only [List.cons_append]
      simp only [List.cons_append] at ih
      by_cases hxy : x = c1 ∧ y = c2
      · have hun : splitS2 c1 c2 (x :: y :: (u'' ++ c1 :: c2 :: v)) =
            [] :: splitS2 c1 c2 (u'' ++ c1 :: c2 :: v) := by
          simp only [splitS2, if_pos hxy]
        have h2 := splitS2_len_ge2 c1 c2 (u'' ++ c1 :: c2 :: v) ⟨u'', v, rfl⟩
        rw [hun, List.length_cons]
        omega
      · rcases hbt : splitS2 c1 c2 (y :: (u'' ++ c1 :: c2 :: v)) with _ | ⟨h0, r⟩
        · exact absurd hbt (splitS2_ne_nil c1 c2 _ ·)
        · rw [splitS2_cons_head c1 c2 x y _ hxy h0 r hbt, List.length_cons]
          rw [hbt, List.length_cons] at ih
          omega

/-- C10: `executeMCPTool` rejects, before contacting any server, every tool name that
does not split on `"__"` into exactly two parts (`Invalid tool name format`), rejects a
name whose first part matches no connected server (`MCP server not found`), and
`getMCPTools` advertises `serverName__toolName` for every server tool — so a server
tool whose own name contains `"__"` is advertised yet every dispatch of its advertised
name fails the format check without reaching any server. -/
theorem executeMCPTool_name_routing :
    (∀ servers toolName args, (splitS2 '_' '_' toolName).length ≠ 2 →
      executeMCPTool servers toolName args =
        (.error (txt "Invalid tool name format: " ++ toolName), [])) ∧
    (∀ servers toolName args sn tn, splitS2 '_' '_' toolName = [sn, tn] →
      (∀ p ∈ servers, p.1 ≠ sn) →
      executeMCPTool servers toolName args =
        (.error (txt "MCP server not found: " ++ sn), [])) ∧
    (∀ servers sn tn args, subInfix2 '_' '_' tn →
      executeMCPTool servers (sn ++ txt "__" ++ tn) args =
        (.error (txt "Invalid tool name format: " ++ (sn ++ txt "__" ++ tn)), [])) ∧
    (∀ regs sn ts tn, (sn, ts) ∈ regs → tn ∈ ts →
      (sn ++ txt "__" ++ tn) ∈ getMCPToolNames regs) := by
  have part1 : ∀ servers toolName args, (splitS2 '_' '_' toolName).length ≠ 2 →
      executeMCPTool servers toolName args =
        (.error (txt "Invalid tool name format: " ++ toolName), []) := by
    intro servers toolName args hlen
    rcases hsp : splitS2 '_' '_' toolName with _ | ⟨a, _ | ⟨b, _ | ⟨c, t⟩⟩⟩
    · simp [executeMCPTool, hsp]
    · simp [executeMCPTool, hsp]
    · rw [hsp] at hlen
      simp at hlen
    · simp [executeMCPTool, hsp]
  refine ⟨part1, ?_, ?_, ?_⟩
  · intro servers toolName args sn tn hsp hno
    have hfind : servers.find? (fun p => decide (p.1 = sn)) = none := by
      rw [List.find?_eq_none]
      intro p hp
      simp [hno p hp]
    simp [executeMCPTool, hsp, hfind]
  · intro servers sn tn args hsub
    have heq : sn ++ txt "__" ++ tn = sn ++ '_' :: '_' :: tn := by
      simp [txt]
    rw [heq]
    refine part1 servers _ args ?_
    have := splitS2_len_ge3 '_' '_' tn hsub sn
    omega
  · intro regs sn ts tn hmem htn
    revert hmem
    induction regs with
    | nil => intro hmem; cases hmem
    | cons r rest ih =>
      intro hmem
      rcases List.mem_cons.mp hmem with h | h
      · subst h
        simp only [getMCPToolNames, List.mem_append]
        exact .inl (List.mem_map_of_mem _ htn)
      · rcases r with ⟨sn', ts'⟩
        simp only [getMCPToolNames, List.mem_append]
        exact .inr (ih h)

/-- Witness for C10 at concrete inputs: a name with no separator and a doubled-up
advertised name are both rejected with the format error, and the advertised list
contains the qualified name. -/
theorem executeMCPTool_name_routing_witness :
    executeMCPTool [] (txt "abc") Json.null =
      (.error (txt "Invalid tool name format: " ++ txt "abc"), []) ∧
    executeMCPTool [] (txt "srv") Json.null =
      (.error (txt "Invalid tool name format: " ++ txt "srv"), []) ∧
    executeMCPTool [] (txt "srv" ++ txt "__" ++ txt "a__b") Json.null =
      (.error (txt "Invalid tool name format: " ++ (txt "srv" ++ txt "__" ++ txt "a__b")), []) ∧
    (txt "srv" ++ txt "__" ++ txt "a__b") ∈ getMCPToolNames [(txt "srv", [txt "a__b"])] := by
  refine ⟨?_, ?_, ?_, ?_⟩
  · exact executeMCPTool_name_routing.1 [] (txt "abc") Json.null (by decide)
  · exact executeMCPTool_name_routing.1 [] (txt "srv") Json.null (by decide)
  · exact executeMCPTool_name_routing.2.2.1 [] (txt "srv") (txt "a__b") Json.null
      ⟨txt "a", txt "b", by decide⟩
  · exact executeMCPTool_name_routing.2.2.2 [(txt "srv", [txt "a__b"])] (txt "srv")
      [txt "a__b"] (txt "a__b") (by simp) (by simp)

/-! ### Claims about the approval gate and the two graph nodes -/

/-- C1 counterexample: `"files__delete_window"` both performs a delete action and
targets a window resource — the spec's description of a sensitive call — yet the
code's predicate returns `false` for it, because the predicate additionally requires
the `roxybrowser-openapi__` prefix. -/
theorem isDeleteWindowTool_counterexample :
    specDeleteBrowserName (txt "files__delete_window") = true ∧
    isDeleteWindowTool (txt "files__delete_window") = false := by
  constructor <;> decide

/-- C1 (amended): the sensitive-call predicate returns true exactly for names that
(case-insensitively) start with `roxybrowser-openapi__` and contain a delete/remove
action word and a browser/window target word; in the act step, a first-run call the
predicate accepts suspends with the approval request before any dispatch (the log
stays empty), and a call it rejects is dispatched without suspension. -/
theorem isDeleteWindowTool_gate :
    (∀ name : Str, isDeleteWindowTool name =
      (strHasPre (txt "roxybrowser-openapi__") (lower name) && specDeleteBrowserName name)) ∧
    (∀ (c : SToolCall) (dispatch : Str → Json → Except Str Json),
      (isDeleteWindowTool c.name = true →
        toolsGo dispatch [] [c] [] [] [] =
          .suspended (buildDeleteInterrupt c.name c.args) []) ∧
      (isDeleteWindowTool c.name = false →
        toolsGo dispatch [] [c] [] [] [] =
          .done [mkDispatchMsg (dispatch c.name c.args) c] [(c.id, c.name, c.args)])) := by
  constructor
  · intro name
    cases h : strHasPre (txt "roxybrowser-openapi__") (lower name) with
    | false => simp [isDeleteWindowTool, specDeleteBrowserName, h]
    | true => simp [isDeleteWindowTool, specDeleteBrowserName, h]
  · intro c dispatch
    have hrep : replayed [] c = false := by simp [replayed]
    constructor
    · intro h
      simp [toolsGo, hrep, h]
    · intro h
      cases hd : dispatch c.name c.args with
      | ok r => simp [toolsGo, hrep, h, hd, mkDispatchMsg]
      | error e => simp [toolsGo, hrep, h, hd, mkDispatchMsg]

/-- Witness for C1: the concrete sensitive call suspends with its approval request and
no dispatch; the concrete ordinary call dispatches immediately. -/
theorem isDeleteWindowTool_gate_witness :
    toolsGo okDispatch [] [sensCall] [] [] [] =
      .suspended (buildDeleteInterrupt sensCall.name sensCall.args) [] ∧
    toolsGo okDispatch [] [normCall] [] [] [] =
      .done [mkDispatchMsg (okDispatch normCall.name normCall.args) normCall]
        [(normCall.id, normCall.name, normCall.args)] := by
  constructor
  · exact (isDeleteWindowTool_gate.2 sensCall okDispatch).1 (by decide)
  · exact (isDeleteWindowTool_gate.2 normCall okDispatch).2 (by decide)

/-- C2 counterexample: resuming a suspended sensitive call with the malformed decision
`{type: "banana"}` — neither `approve`, `reject` nor `edit` — dispatches the tool with
its original arguments (the log records the dispatch and the produced message is an
ordinary, non-error tool result), instead of treating the malformed decision as a
rejection. -/
theorem hitl_malformed_decision_counterexample :
    toolsGo okDispatch [] [sensCall] [bananaRv] [] [] =
      .done [createToolMessage (Json.str (txt "done")) sensCall.id sensCall.name]
        [(sensCall.id, sensCall.name, sensCall.args)] ∧
    (createToolMessage (Json.str (txt "done")) sensCall.id sensCall.name).error = false ∧
    logOf (toolsGo okDispatch [] [sensCall] [bananaRv] [] []) ≠ [] := by
  refine ⟨rfl, rfl, ?_⟩
  decide

/-- C2 (amended): when the act step is resumed for a suspended sensitive call with a
decision of type `reject`, with a resume payload from which no first decision can be
extracted, or with a falsy first decision (`null`, `false`, `0`, `""` — the
`!decision` half of the source's reject test), the tool is not dispatched (the log is
unchanged); exactly one tool-result is synthesized for that call, its content contains
the fixed reject marker and its error flag is set; and no further calls of the batch
are processed.  (A truthy decision whose type is unrecognized is instead treated as an
approval — see the counterexample.) -/
theorem hitl_reject_stops_batch :
    ∀ (dispatch : Str → Json → Except Str Json) (existing : List Str) (c : SToolCall)
      (rest : List SToolCall) (rv : Json) (rs : List Json) (msgs : List SToolMsg)
      (log : List (Str × Str × Json)),
      replayed existing c = false →
      isDeleteWindowTool c.name = true →
      (getDecision rv = none ∨
        ∃ d, getDecision rv = some d ∧
          (jsTruthy d = false ∨ typeIs d (txt "reject") = true)) →
      toolsGo dispatch existing (c :: rest) (rv :: rs) msgs log =
        .done (msgs ++ [createRejectionToolMessage c.id c.name]) log ∧
      (createRejectionToolMessage c.id c.name).error = true ∧
      hasSub HITL_REJECT_MARKER (createRejectionToolMessage c.id c.name).content = true := by
  intro dispatch existing c rest rv rs msgs log hrep hsens hdec
  refine ⟨?_, rfl, rfl⟩
  rcases hdec with h | ⟨d, hd, ht⟩
  · simp [toolsGo, hrep, hsens, h]
  · simp [toolsGo, hrep, hsens, hd, ht]

/-- Witness for C2: both an explicit `reject` decision and a falsy (`null`) first
decision yield exactly the rejection message, abandoning the rest of the batch and
dispatching nothing. -/
theorem hitl_reject_stops_batch_witness :
    toolsGo okDispatch [] [sensCall, normCall] [rejectRv] [] [] =
      .done [createRejectionToolMessage sensCall.id sensCall.name] [] ∧
    toolsGo okDispatch [] [sensCall, normCall] [nullDecRv] [] [] =
      .done [createRejectionToolMessage sensCall.id sensCall.name] [] ∧
    (createRejectionToolMessage sensCall.id sensCall.name).error = true := by
  refine ⟨?_, ?_, rfl⟩
  · exact (hitl_reject_stops_batch okDispatch [] sensCall [normCall] rejectRv [] [] []
      (by decide) (by decide)
      (.inr ⟨Json.obj (.cons (txt "type") (.str (txt "reject")) .nil), rfl,
        .inr (by decide)⟩)).1
  · exact (hitl_reject_stops_batch okDispatch [] sensCall [normCall] nullDecRv [] [] []
      (by decide) (by decide) (.inr ⟨Json.null, rfl, .inl rfl⟩)).1

/-- C4: when the most recent history entry is a tool result carrying the reject
sentinel, the chat step returns the fixed rejection announcement without invoking the
model provider; for any other most recent entry it invokes the model on the full
history. -/
theorem chat_reject_short_circuit :
    ∀ (model : List SMessage → SMessage) (msgs : List SMessage) (m : SMessage),
      msgs.getLast? = some m →
      (isRejectedToolMessage m = true → chatNode model msgs = (fixedRejectionAI, false)) ∧
      (isRejectedToolMessage m = false → chatNode model msgs = (model msgs, true)) := by
  intro model msgs m hlast
  constructor <;> intro h <;> simp [chatNode, hlast, h]

/-- Witness for C4: a history ending in a rejection tool result short-circuits; one
ending in a human message invokes the model. -/
theorem chat_reject_short_circuit_witness :
    chatNode (fun _ => SMessage.ai (txt "hi") [])
      [SMessage.tool (createRejectionToolMessage (txt "t1") (txt "n"))] =
      (fixedRejectionAI, false) ∧
    chatNode (fun _ => SMessage.ai (txt "hi") []) [SMessage.human (txt "q")] =
      (SMessage.ai (txt "hi") [], true) := by
  constructor
  · exact (chat_reject_short_circuit (fun _ => SMessage.ai (txt "hi") [])
      [SMessage.tool (createRejectionToolMessage (txt "t1") (txt "n"))]
      (SMessage.tool (createRejectionToolMessage (txt "t1") (txt "n"))) rfl).1 (by decide)
  · exact (chat_reject_short_circuit (fun _ => SMessage.ai (txt "hi") [])
      [SMessage.human (txt "q")] (SMessage.human (txt "q")) rfl).2 (by decide)

/-- Every entry of the dispatch log of a `tools` run either was already in the log or
stems from a non-replayed call of the batch (its id and name match that call):
replay-guarded calls are never dispatched. -/
theorem toolsGo_log_from_calls :
    ∀ (calls : List SToolCall) (dispatch : Str → Json → Except Str Json)
      (existing : List Str) (resumes : List Json) (msgs : List SToolMsg)
      (log : List (Str × Str × Json)) (e : Str × Str × Json),
      e ∈ logOf (toolsGo dispatch existing calls resumes msgs log) →
      e ∈ log ∨ ∃ c ∈ calls, replayed existing c = false ∧ e.1 = c.id ∧ e.2.1 = c.name := by
  intro calls
  induction calls with
  | nil =>
    intro dispatch existing resumes msgs log e he
    simp only [toolsGo, logOf] at he
    exact .inl he
  | cons c rest ih =>
    intro dispatch existing resumes msgs log e he
    have lift : (e ∈ log ∨ ∃ c' ∈ rest, replayed existing c' = false ∧
        e.1 = c'.id ∧ e.2.1 = c'.name) →
        e ∈ log ∨ ∃ c' ∈ c :: rest, replayed existing c' = false ∧
          e.1 = c'.id ∧ e.2.1 = c'.name := by
      rintro (h | ⟨c', hc', hrest⟩)
      · exact .inl h
      · exact .inr ⟨c', List.mem_cons_of_mem c hc', hrest⟩
    have liftNew : ∀ args, replayed existing c = false →
        (e ∈ log ++ [(c.id, c.name, args)] ∨ ∃ c' ∈ rest, replayed existing c' = false ∧
          e.1 = c'.id ∧ e.2.1 = c'.name) →
        e ∈ log ∨ ∃ c' ∈ c :: rest, replayed existing c' = false ∧
          e.1 = c'.id ∧ e.2.1 = c'.name := by
      rintro args hrep (h | ⟨c', hc', hrest⟩)
      · rcases List.mem_append.mp h with h | h
        · exact .inl h
        · rcases List.mem_singleton.mp h with rfl
          exact .inr ⟨c, List.mem_cons_self c rest, hrep, rfl, rfl⟩
      · exact .inr ⟨c', List.mem_cons_of_mem c hc', hrest⟩
    cases hrep : replayed existing c with
    | true =>
      rw [show toolsGo dispatch existing (c :: rest) resumes msgs log =
          toolsGo dispatch existing rest resumes msgs log from by simp [toolsGo, hrep]] at he
      exact lift (ih dispatch existing resumes msgs log e he)
    | false =>
      cases hsens : isDeleteWindowTool c.name with
      | false =>
        cases hd : dispatch c.name c.args with
        | ok r =>
          rw [show toolsGo dispatch existing (c :: rest) resumes msgs log =
              toolsGo dispatch existing rest resumes
                (msgs ++ [createToolMessage r c.id c.name])
                (log ++ [(c.id, c.name, c.args)]) from by
            simp [toolsGo, hrep, hsens, hd]] at he
          exact liftNew c.args hrep (ih dispatch existing resumes _ _ e he)
        | error er =>
          rw [show toolsGo dispatch existing (c :: rest) resumes msgs log =
              toolsGo dispatch existing rest resumes
                (msgs ++ [createErrorToolMessage er c.id c.name])
                (log ++ [(c.id, c.name, c.args)]) from by
            simp [toolsGo, hrep, hsens, hd]] at he
          exact liftNew c.args hrep (ih dispatch existing resumes _ _ e he)
      | true =>
        cases resumes with
        | nil =>
          rw [show toolsGo dispatch existing (c :: rest) [] msgs log =
              .suspended (buildDeleteInterrupt c.name c.args) log from by
            simp [toolsGo, hrep, hsens]] at he
          exact .inl he
        | cons rv rs =>
          cases hgd : getDecision rv with
          | none =>
            rw [show toolsGo dispatch existing (c :: rest) (rv :: rs) msgs log =
                .done (msgs ++ [createRejectionToolMessage c.id c.name]) log from by
              simp [toolsGo, hrep, hsens, hgd]] at he
            exact .inl he
          | some d =>
            by_cases hrj : jsTruthy d = false ∨ typeIs d (txt "reject") = true
            · rw [show toolsGo dispatch existing (c :: rest) (rv :: rs) msgs log =
                  .done (msgs ++ [createRejectionToolMessage c.id c.name]) log from by
                simp only [toolsGo, hrep, hsens, hgd, if_pos hrj]
                simp] at he
              exact .inl he
            ·
              cases hd : dispatch c.name
                  (if typeIs d (txt "edit") then (editedArgsOpt d).getD c.args else c.args) with
              | ok r =>
                rw [show toolsGo dispatch existing (c :: rest) (rv :: rs) msgs log =
                    toolsGo dispatch existing rest rs
                      (msgs ++ [createToolMessage r c.id c.name])
                      (log ++ [(c.id, c.name,
                        if typeIs d (txt "edit") then (editedArgsOpt d).getD c.args
                        else c.args)]) from by
                  simp [toolsGo, hrep, hsens, hgd, hrj, hd]] at he
                exact liftNew _ hrep (ih dispatch existing rs _ _ e he)
              | error er =>
                rw [show toolsGo dispatch existing (c :: rest) (rv :: rs) msgs log =
                    toolsGo dispatch existing rest rs
                      (msgs ++ [createErrorToolMessage er c.id c.name])
                      (log ++ [(c.id, c.name,
                        if typeIs d (txt "edit") then (editedArgsOpt d).getD c.args
                        else c.args)]) from by
                  simp [toolsGo, hrep, hsens, hgd, hrj, hd]] at he
                exact liftNew _ hrep (ih dispatch existing rs _ _ e he)

/-- When no call of the batch is sensitive, the `tools` run completes and produces
exactly one tool message and one dispatch per non-replayed call, in the original call
order. -/
theorem toolsGo_no_sensitive :
    ∀ (calls : List SToolCall) (dispatch : Str → Json → Except Str Json)
      (existing : List Str) (resumes : List Json) (msgs : List SToolMsg)
      (log : List (Str × Str × Json)),
      (∀ c ∈ calls, isDeleteWindowTool c.name = false) →
      toolsGo dispatch existing calls resumes msgs log =
        .done (msgs ++ (calls.filter (fun c => !replayed existing c)).map
            (fun c => mkDispatchMsg (dispatch c.name c.args) c))
          (log ++ (calls.filter (fun c => !replayed existing c)).map
            (fun c => (c.id, c.name, c.args))) := by
  intro calls
  induction calls with
  | nil =>
    intro dispatch existing resumes msgs log _
    simp [toolsGo]
  | cons c rest ih =>
    intro dispatch existing resumes msgs log hall
    have hc := hall c (List.mem_cons_self c rest)
    have hrest : ∀ x ∈ rest, isDeleteWindowTool x.name = false :=
      fun x hx => hall x (List.mem_cons_of_mem c hx)
    cases hrep : replayed existing c with
    | true =>
      rw [show toolsGo dispatch existing (c :: rest) resumes msgs log =
          toolsGo dispatch existing rest resumes msgs log from by simp [toolsGo, hrep]]
      rw [ih dispatch existing resumes msgs log hrest]
      simp [List.filter_cons, hrep]
    | false =>
      cases hd : dispatch c.name c.args with
      | ok r =>
        rw [show toolsGo dispatch existing (c :: rest) resumes msgs log =
            toolsGo dispatch existing rest resumes
              (msgs ++ [createToolMessage r c.id c.name])
              (log ++ [(c.id, c.name, c.args)]) from by
          simp [toolsGo, hrep, hc, hd]]
        rw [ih dispatch existing resumes _ _ hrest]
        simp [List.filter_cons, hrep, mkDispatchMsg, hd]
      | error er =>
        rw [show toolsGo dispatch existing (c :: rest) resumes msgs log =
            toolsGo dispatch existing rest resumes
              (msgs ++ [createErrorToolMessage er c.id c.name])
              (log ++ [(c.id, c.name, c.args)]) from by
          simp [toolsGo, hrep, hc, hd]]
        rw [ih dispatch existing resumes _ _ hrest]
        simp [List.filter_cons, hrep, mkDispatchMsg, hd]

/-- C3 (amended): in the act step, a call whose id already has a matching tool result
in history is never dispatched again (every dispatch log entry stems from a
non-replayed call of the batch); each produced tool message carries its call's id; and
when no call of the batch requires the approval gate, the run completes with exactly
one tool-result per remaining (un-resulted) call, in the original call order — a
suspension or rejection instead abandons the remaining calls (see the
counterexample). -/
theorem tools_replay_guard :
    (∀ (dispatch : Str → Json → Except Str Json) (history : List SMessage)
      (resumes : List Json) (e : Str × Str × Json),
      e ∈ logOf (toolsNode dispatch history resumes) →
      ∃ c ∈ lastToolCalls history, replayed (existingToolIds history) c = false ∧
        e.1 = c.id ∧ e.2.1 = c.name) ∧
    (∀ (r : Except Str Json) (c : SToolCall), (mkDispatchMsg r c).tool_call_id = c.id) ∧
    (∀ (dispatch : Str → Json → Except Str Json) (history : List SMessage)
      (resumes : List Json),
      (∀ c ∈ lastToolCalls history, isDeleteWindowTool c.name = false) →
      toolsNode dispatch history resumes =
        .done (((lastToolCalls history).filter
            (fun c => !replayed (existingToolIds history) c)).map
            (fun c => mkDispatchMsg (dispatch c.name c.args) c))
          (((lastToolCalls history).filter
            (fun c => !replayed (existingToolIds history) c)).map
            (fun c => (c.id, c.name, c.args)))) := by
  refine ⟨?_, ?_, ?_⟩
  · intro dispatch history resumes e he
    rcases toolsGo_log_from_calls (lastToolCalls history) dispatch (existingToolIds history)
      resumes [] [] e he with h | h
    · cases h
    · exact h
  · intro r c
    cases r <;> rfl
  · intro dispatch history resumes hall
    have := toolsGo_no_sensitive (lastToolCalls history) dispatch (existingToolIds history)
      resumes [] [] hall
    simpa [toolsNode] using this

/-- Witness for C3: on a history whose call `t1` already has a result, only `t2` is
dispatched and exactly one result is produced. -/
theorem tools_replay_guard_witness :
    toolsNode okDispatch histC3 [] =
      .done [mkDispatchMsg (.ok (Json.str (txt "done"))) ⟨txt "t2", txt "a__y", Json.null⟩]
        [(txt "t2", txt "a__y", Json.null)] := by
  have h := tools_replay_guard.2.2 okDispatch histC3 [] (by decide)
  exact h.trans rfl

/-- C3 counterexample: with a batch of two un-resulted calls whose first is sensitive
and rejected, the act step produces a single tool-result (the rejection) — not one per
remaining call: the second call is abandoned without any result. -/
theorem tools_one_result_counterexample :
    toolsNode okDispatch [.ai (txt "") [sensCall, normCall]] [rejectRv] =
      .done [createRejectionToolMessage sensCall.id sensCall.name] [] ∧
    (([sensCall, normCall].filter (fun c => !replayed [] c)).length = 2) := by
  exact ⟨rfl, by decide⟩

/-! ### Claims about the stream loop -/

/-- A clean prefix composes: running frames `xs ++ ys` first runs `xs`, and when that
raises no error, continues with `ys` from the reached state. -/
theorem runFrames_append :
    ∀ (xs ys : List Frame) (s0 s : SState), runFrames xs s0 = (s, none) →
      runFrames (xs ++ ys) s0 = runFrames ys s := by
  intro xs
  induction xs with
  | nil =>
    intro ys s0 s h
    simp only [runFrames, Prod.mk.injEq] at h
    rw [List.nil_append, h.1]
  | cons f fs ih =>
    intro ys s0 s h
    cases hstep : stepFrame s0 f with
    | error e =>
      rw [show runFrames (f :: fs) s0 = (s0, some e) from by simp [runFrames, hstep]] at h
      simp only [Prod.mk.injEq] at h
      cases h.2
    | ok s1 =>
      rw [show runFrames (f :: fs) s0 = runFrames fs s1 from by simp [runFrames, hstep]] at h
      rw [List.cons_append,
        show runFrames (f :: (fs ++ ys)) s0 = runFrames (fs ++ ys) s1 from by
          simp [runFrames, hstep]]
      exact ih ys s1 s h

/-- C5 (amended): a stream whose frames contain an `error` event whose payload parses
to a truthy JSON value raises the transport failure at that event and produces no
final assembled message; the incremental notifications are exactly those of the frames
preceding the error — frames after it contribute none.  (An error event whose payload
does not parse, or parses to a falsy value, is silently skipped by the
`if (!payload) continue;` guard instead.) -/
theorem stream_error_aborts :
    ∀ (pre post : List Frame) (f : Frame) (s : SState) (p : Json),
      runFrames pre initState = (s, none) →
      f.event = txt "error" →
      f.data ≠ txt "[DONE]" →
      jsonParse f.data = some p →
      jsTruthy p = true →
      runFrames (pre ++ f :: post) initState = (s, some (errMsgOf p)) ∧
      generateFromFrames (pre ++ f :: post) = .error (errMsgOf p) := by
  intro pre post f s p hpre hev hdone hparse htruthy
  have hstep : stepFrame s f = .error (errMsgOf p) := by
    simp [stepFrame, hev, hdone, hparse, htruthy]
  have h1 : runFrames (pre ++ f :: post) initState = (s, some (errMsgOf p)) := by
    rw [runFrames_append pre (f :: post) initState s hpre]
    simp [runFrames, hstep]
  exact ⟨h1, by simp [generateFromFrames, h1]⟩

/-- Witness for C5 (amended): a text delta followed by a concrete error event (whose
object payload is truthy) raises the failure `"boom"` and assembles no message. -/
theorem stream_error_aborts_witness :
    generateFromFrames [frameTextHi, frameErrBoom] = .error (Json.str (txt "boom")) := by
  have h := (stream_error_aborts [frameTextHi] [] frameErrBoom
    (runFrames [frameTextHi] initState).1
    (Json.obj (.cons (txt "message") (.str (txt "boom")) .nil))
    rfl rfl (by decide) rfl rfl).2
  exact h

/-- C5 counterexample: a stream with a text delta before the error event has already
yielded one incremental notification when the failure is raised — the claim's "zero
incremental notifications" is false, even though the transport failure is raised and
no final message is produced. -/
theorem stream_error_notifs_counterexample :
    (runFrames [frameTextHi, frameErrBoom] initState).2 = some (Json.str (txt "boom")) ∧
    (runFrames [frameTextHi, frameErrBoom] initState).1.notifs =
      [⟨NotifType.content, txt "Hi"⟩] ∧
    (runFrames [frameTextHi, frameErrBoom] initState).1.notifs ≠ [] ∧
    generateFromFrames [frameTextHi, frameErrBoom] = .error (Json.str (txt "boom")) := by
  refine ⟨rfl, rfl, ?_, rfl⟩
  decide

/-! ### Claims about the assembler's tool-call ordering -/

/-- Keys of `setKey` are among the old keys and the inserted key. -/
theorem mem_keys_setKey :
    ∀ (m : List (Nat × TCState)) (i : Nat) (v : TCState) (x : Nat),
      x ∈ (setKey m i v).map Prod.fst → x ∈ m.map Prod.fst ∨ x = i := by
  intro m
  induction m with
  | nil =>
    intro i v x hx
    simp [setKey] at hx
    exact .inr hx
  | cons kv t ih =>
    rcases kv with ⟨k, w⟩
    intro i v x hx
    by_cases hk : k = i
    · rw [show setKey ((k, w) :: t) i v = (i, v) :: t from by simp [setKey, hk]] at hx
      rcases List.mem_cons.mp hx with h | h
      · exact .inr h
      · exact .inl (List.mem_cons_of_mem k h)
    · rw [show setKey ((k, w) :: t) i v = (k, w) :: setKey t i v from by simp [setKey, hk]] at hx
      rcases List.mem_cons.mp hx with h | h
      · exact .inl (by rw [List.map_cons, h]; exact List.mem_cons_self _ _)
      · rcases ih i v x h with h' | h'
        · exact .inl (List.mem_cons_of_mem k h')
        · exact .inr h'

/-- `setKey` preserves distinctness of the keys. -/
theorem nodup_setKey :
    ∀ (m : List (Nat × TCState)) (i : Nat) (v : TCState),
      (m.map Prod.fst).Nodup → ((setKey m i v).map Prod.fst).Nodup := by
  intro m
  induction m with
  | nil =>
    intro i v _
    simp [setKey]
  | cons kv t ih =>
    rcases kv with ⟨k, w⟩
    intro i v hnd
    simp only [List.map_cons, List.nodup_cons] at hnd
    by_cases hk : k = i
    · rw [show setKey ((k, w) :: t) i v = (i, v) :: t from by simp [setKey, hk]]
      simp only [List.map_cons, List.nodup_cons]
      exact ⟨hk ▸ hnd.1, hnd.2⟩
    · rw [show setKey ((k, w) :: t) i v = (k, w) :: setKey t i v from by simp [setKey, hk]]
      simp only [List.map_cons, List.nodup_cons]
      refine ⟨fun hmem => ?_, ih i v hnd.2⟩
      rcases mem_keys_setKey t i v k hmem with h | h
      · exact hnd.1 h
      · exact hk h

/-- `appendInput` preserves distinctness of the keys. -/
theorem nodup_appendInput (m : List (Nat × TCState)) (i : Nat) (t : Str)
    (hnd : (m.map Prod.fst).Nodup) : ((appendInput m i t).map Prod.fst).Nodup := by
  unfold appendInput
  cases getKey m i with
  | none => exact nodup_setKey m i _ hnd
  | some tc => exact nodup_setKey m i _ hnd

/-- The block-start handler either keeps the tool map or updates one key. -/
theorem handleStart_tools (s : SState) (p : Json) :
    (handleStart s p).tools = s.tools ∨
      ∃ i v, (handleStart s p).tools = setKey s.tools i v := by
  simp only [handleStart]
  split_ifs
  · exact .inl rfl
  · exact .inl rfl
  · exact .inr ⟨_, _, rfl⟩
  · exact .inl rfl

/-- The delta handler either keeps the tool map or appends to one key. -/
theorem handleDelta_tools (s : SState) (p : Json) :
    (handleDelta s p).tools = s.tools ∨
      ∃ i t, (handleDelta s p).tools = appendInput s.tools i t := by
  simp only [handleDelta]
  split_ifs
  · exact .inl rfl
  · exact .inl rfl
  · exact .inr ⟨_, _, rfl⟩
  · exact .inl rfl

/-- The block-start handler preserves distinctness of the tool map keys. -/
theorem nodup_handleStart (s : SState) (p : Json)
    (hnd : (s.tools.map Prod.fst).Nodup) : ((handleStart s p).tools.map Prod.fst).Nodup := by
  rcases handleStart_tools s p with ht | ⟨i, v, ht⟩
  · rw [ht]; exact hnd
  · rw [ht]; exact nodup_setKey s.tools i v hnd

/-- The delta handler preserves distinctness of the tool map keys. -/
theorem nodup_handleDelta (s : SState) (p : Json)
    (hnd : (s.tools.map Prod.fst).Nodup) : ((handleDelta s p).tools.map Prod.fst).Nodup := by
  rcases handleDelta_tools s p with ht | ⟨i, t, ht⟩
  · rw [ht]; exact hnd
  · rw [ht]; exact nodup_appendInput s.tools i t hnd

/-- One frame step preserves distinctness of the tool map keys. -/
theorem stepFrame_nodup (s s' : SState) (f : Frame) (h : stepFrame s f = .ok s')
    (hnd : (s.tools.map Prod.fst).Nodup) : (s'.tools.map Prod.fst).Nodup := by
  by_cases h1 : f.data = txt "[DONE]"
  · rw [show s' = s from by simpa [stepFrame, h1] using h.symm]
    exact hnd
  · cases hp : jsonParse f.data with
    | none =>
      rw [show s' = s from by simpa [stepFrame, h1, hp] using h.symm]
      exact hnd
    | some payload =>
      cases htr : jsTruthy payload with
      | false =>
        rw [show s' = s from by simpa [stepFrame, h1, hp, htr] using h.symm]
        exact hnd
      | true =>
        by_cases he : f.event = txt "error"
        · exfalso
          simp [stepFrame, h1, hp, htr, he] at h
        · have h2 : s' =
              (if f.event = txt "content_block_delta" then
                handleDelta (if f.event = txt "content_block_start" then handleStart s payload
                  else s) payload
              else (if f.event = txt "content_block_start" then handleStart s payload else s)) := by
            simpa [stepFrame, h1, hp, htr, he] using h.symm
          rw [h2]
          by_cases hcd : f.event = txt "content_block_delta" <;>
            by_cases hcs : f.event = txt "content_block_start" <;>
              simp only [hcd, hcs, if_true, if_false, ite_true, ite_false] <;>
              first
                | exact nodup_handleDelta _ _ (nodup_handleStart _ _ hnd)
                | exact nodup_handleDelta _ _ hnd
                | exact nodup_handleStart _ _ hnd
                | exact hnd

/-- The stream loop preserves distinctness of the tool map keys. -/
theorem runFrames_nodup :
    ∀ (fs : List Frame) (s : SState), (s.tools.map Prod.fst).Nodup →
      (((runFrames fs s).1).tools.map Prod.fst).Nodup := by
  intro fs
  induction fs with
  | nil =>
    intro s h
    simpa [runFrames] using h
  | cons f fs' ih =>
    intro s h
    cases hstep : stepFrame s f with
    | error e =>
      rw [show runFrames (f :: fs') s = (s, some e) from by simp [runFrames, hstep]]
      exact h
    | ok s1 =>
      rw [show runFrames (f :: fs') s = runFrames fs' s1 from by simp [runFrames, hstep]]
      exact ih s1 (stepFrame_nodup s s1 f hstep h)

/-- C7: for every stream of frames that completes without an error event, the
assembled message's tool calls are the sorted-by-stream-index entries (strictly
ascending, whatever the arrival order of the frames), and the assembled `tool_calls`
field is exactly that list (or absent when there are no tool calls). -/
theorem tool_calls_sorted :
    ∀ (frames : List Frame) (s : SState),
      runFrames frames initState = (s, none) →
      List.Pairwise (fun a b : Nat × TCState => a.1 < b.1) (sortedToolEntries s.tools) ∧
      (assemble s).tool_calls =
        (if (sortedToolEntries s.tools).map fmtEntry = [] then none
          else some ((sortedToolEntries s.tools).map fmtEntry)) := by
  intro frames s hrun
  have hs : s = (runFrames frames initState).1 := by rw [hrun]
  have hnd : (s.tools.map Prod.fst).Nodup := by
    rw [hs]
    exact runFrames_nodup frames initState (by simp [initState])
  constructor
  · have hsorted : List.Sorted keyLE (sortedToolEntries s.tools) :=
      List.sorted_insertionSort keyLE s.tools
    have hperm : List.Perm (sortedToolEntries s.tools) s.tools :=
      List.perm_insertionSort keyLE s.tools
    have hnd2 : ((sortedToolEntries s.tools).map Prod.fst).Nodup :=
      ((hperm.map Prod.fst).nodup_iff).mpr hnd
    have hne : List.Pairwise (fun a b : Nat × TCState => a.1 ≠ b.1)
        (sortedToolEntries s.tools) := by
      have h' : ((sortedToolEntries s.tools).map Prod.fst).Pairwise (fun a b => a ≠ b) := hnd2
      exact List.pairwise_map.mp h'
    exact (List.Pairwise.and hsorted hne).imp (fun h => lt_of_le_of_ne h.1 h.2)
  · rcases hfmt : (sortedToolEntries s.tools).map fmtEntry with _ | ⟨x, r⟩
    · simp [assemble, hfmt]
    · simp [assemble, hfmt]

/-- Witness for C7: tool-use starts arriving at index 5 then index 1 assemble into
calls listed at strictly ascending indexes 1, 5. -/
theorem tool_calls_sorted_witness :
    List.Pairwise (fun a b : Nat × TCState => a.1 < b.1)
      (sortedToolEntries ((runFrames [frameTool5, frameTool1] initState).1).tools) ∧
    (assemble ((runFrames [frameTool5, frameTool1] initState).1)).tool_calls =
      some [⟨txt "b__n0", Json.obj .nil, txt "t0"⟩, ⟨txt "b__n5", Json.obj .nil, txt "t5"⟩] := by
  have h := tool_calls_sorted [frameTool5, frameTool1]
    ((runFrames [frameTool5, frameTool1] initState).1) rfl
  exact ⟨h.1, h.2.trans rfl⟩

/-- C8: at end of stream each accumulated argument buffer is parsed as JSON and a
parse failure yields the empty object without failing the message; in particular the
`tool_use` start at index 2 (id `t1`, name `x__y`, empty inline input) followed by the
`input_json_delta` fragments `{"a":1` and `}` assembles into exactly the tool call
`{id: "t1", name: "x__y", args: {a: 1}}`. -/
theorem tool_args_parse :
    (∀ input : Str, jsonParse input = none → parseToolArgs input = Json.obj .nil) ∧
    generateFromFrames [frameToolStart, frameArgsDelta1, frameArgsDelta2] =
      .ok ([], ⟨txt "",
        some [⟨txt "x__y", Json.obj (.cons (txt "a") (.num 1 0) .nil), txt "t1"⟩],
        none⟩) := by
  constructor
  · intro input h
    by_cases he : input = []
    · simp [parseToolArgs, he]
    · simp [parseToolArgs, he, h]
  · rfl

/-- Witness for C8: a lone `{` does not parse, so its argument buffer becomes the
empty object. -/
theorem tool_args_parse_witness : parseToolArgs (txt "\x7b") = Json.obj .nil :=
  tool_args_parse.1 (txt "\x7b") rfl

/-- C9 counterexample: an empty-string dispatch result is a string, but the display
string is the fixed no-output message, not the string verbatim — the source checks
falsiness of the result before the string branch. -/
theorem formatToolResult_falsy_counterexample :
    formatToolResult (Json.str (txt "")) = noOutputMsg ∧
    formatToolResult (Json.str (txt "")) ≠ txt "" := by
  exact ⟨rfl, by decide⟩

/-- C9 (amended): the display string of a dispatch result is: the fixed
`"Tool executed successfully with no output"` message when the result is falsy;
else the newline-join of the items' textual renderings when the result has a
`content` array; else the string itself when the result is a string; else its
pretty JSON serialization (`JSON.stringify(result, null, 2)`). -/
theorem formatToolResult_spec :
    ∀ r : Json,
      (jsTruthy r = false → formatToolResult r = noOutputMsg) ∧
      (∀ items, jsTruthy r = true → contentArr r = some items →
        formatToolResult r = joinWithChar '\n' ((jsonListToList items).map renderContentItem)) ∧
      (∀ s, r = Json.str s → jsTruthy r = true → formatToolResult r = s) ∧
      (jsTruthy r = true → contentArr r = none → (∀ s, r ≠ Json.str s) →
        formatToolResult r = stringifyP 0 r) := by
  intro r
  refine ⟨?_, ?_, ?_, ?_⟩
  · intro h
    simp [formatToolResult, h]
  · intro items ht hc
    have hg : getField r (txt "content") = some (.arr items) := by
      unfold contentArr at hc
      cases hgf : getField r (txt "content") with
      | none => rw [hgf] at hc; cases hc
      | some v =>
        rw [hgf] at hc
        cases v <;> simp_all
    simp [formatToolResult, ht, hg]
  · rintro s rfl ht
    simp [formatToolResult, ht, getField]
  · intro ht hc hns
    cases r with
    | str s => exact absurd rfl (hns s)
    | null => simp [jsTruthy] at ht
    | bool b =>
      cases b with
      | false => simp [jsTruthy] at ht
      | true => simp [formatToolResult, ht, getField]
    | num m e => simp [formatToolResult, ht, getField]
    | arr l => simp [formatToolResult, ht, getField]
    | obj f =>
      unfold contentArr at hc
      cases hgf : getField (Json.obj f) (txt "content") with
      | none => simp [formatToolResult, ht, hgf]
      | some v =>
        rw [hgf] at hc
        cases v <;> simp_all [formatToolResult, ht, hgf]

/-- Witness for C9 (amended) at concrete results: a falsy result, a content array, a
plain string, and a plain object. -/
theorem formatToolResult_spec_witness :
    formatToolResult Json.null = noOutputMsg ∧
    formatToolResult (Json.str (txt "ok")) = txt "ok" ∧
    formatToolResult (Json.num 7 0) = stringifyP 0 (Json.num 7 0) ∧
    formatToolResult
        (Json.obj (.cons (txt "content")
          (.arr (.cons (Json.obj (.cons (txt "type") (.str (txt "text"))
            (.cons (txt "text") (.str (txt "A")) .nil))) .nil)) .nil)) =
      joinWithChar '\n' ((jsonListToList
        (.cons (Json.obj (.cons (txt "type") (.str (txt "text"))
          (.cons (txt "text") (.str (txt "A")) .nil))) .nil)).map renderContentItem) := by
  refine ⟨(formatToolResult_spec Json.null).1 rfl, ?_, ?_, ?_⟩
  · exact (formatToolResult_spec (Json.str (txt "ok"))).2.2.1 (txt "ok") rfl (by decide)
  · exact (formatToolResult_spec (Json.num 7 0)).2.2.2 rfl rfl (by intro s h; cases h)
  · exact (formatToolResult_spec _).2.1 _ rfl rfl

end LG
